import Mathlib

/-
Verification of the kamuicode-config-manager auto-updater (Google Apps Script
orchestrator in the repository) against its natural-language specification.

The JavaScript source is shallowly embedded: JS strings become `List Char`
(written `JStr`), JS objects become insertion-ordered association lists,
`Date.now()` and the time budget become explicit parameters, and the external
collaborators (Drive tree, Gemini research call, script properties, trigger
store) become explicit environment records or state records.  Interruption by
the time guard is modelled by a budget counting how many `isTimeUp` checks
still return false: `isTimeUp` is monotone in real time within one run, so
every real schedule of check outcomes is of this shape.
-/

namespace KamuiSpec

/-- JS strings, embedded as lists of characters. -/
abbrev JStr := List Char

/-- Literal helper: a Lean string literal viewed as a `JStr`. -/
def str (s : String) : JStr := s.toList

-- ==========================================================================
-- Time Budget Guard (part_002 lines 164-167 and tools/code.js lines 399-402)
-- ==========================================================================

/-- `isTimeUp` from the orchestrator (part_002): true when the elapsed time
exceeds the limit minus a 30000 ms safety margin.  `now` stands for the
ambient `Date.now()`. -/
def isTimeUp (startTime limitMs now : Int) : Bool :=
  now - startTime > limitMs - 30000

namespace ToolsCode

/-- `isTimeUp` from `src/tools/code.js`: same contract with a 10000 ms margin. -/
def isTimeUp (startTime limitMs now : Int) : Bool :=
  now - startTime > limitMs - 10000

end ToolsCode

-- ==========================================================================
-- JS object / set helpers
-- ==========================================================================

/-- Lookup in an insertion-ordered association list (JS `obj[k]`). -/
def alistGet {α : Type} (o : List (JStr × α)) (k : JStr) : Option α :=
  match o.find? (fun p => p.1 == k) with
  | some p => some p.2
  | none => none

/-- Key membership in an association list (JS `k in obj`). -/
def alistHas {α : Type} (o : List (JStr × α)) (k : JStr) : Bool :=
  o.any (fun p => p.1 == k)

/-- JS `Set.add`: append if absent (insertion order preserved). -/
def setAdd (l : List JStr) (x : JStr) : List JStr :=
  if x ∈ l then l else l ++ [x]

/-- JS `new Set(array)`: deduplicate preserving first occurrences. -/
def setOfList (l : List JStr) : List JStr :=
  l.foldl setAdd []

/-- Maps of server name to descriptor, as parsed from `mcpServers` objects. -/
abbrev ServersMap := List (JStr × JStr)

/-- JS object spread `\x7b...a, ...b\x7d` on objects with unique keys:
keys of `a` keep their position with values overridden by `b`, then keys of
`b` absent from `a` follow in `b` order. -/
def spreadMerge (a b : ServersMap) : ServersMap :=
  a.map (fun p => (p.1, (alistGet b p.1).getD p.2)) ++
    b.filter (fun p => !(alistHas a p.1))

-- ==========================================================================
-- Tree Scanner data model (part_002 lines 244-334, performIterativeScan)
-- ==========================================================================

/-- A Drive leaf: file name, last-updated timestamp (epoch ms), and the result
of parsing its bytes: `some sv` when `JSON.parse` succeeds and the content has
an object-valued `mcpServers` key, `none` otherwise (parse error or wrong
shape). -/
structure FileEntry where
  name : JStr
  updated : Nat
  servers : Option ServersMap
deriving DecidableEq

/-- A Drive container: leaves and child containers in iteration order. -/
structure Folder where
  files : List FileEntry
  subs : List JStr
deriving DecidableEq

/-- The Drive collaborator: folder id to folder, `none` when opening the
folder throws (permissions, transient fault). -/
def DriveEnv : Type := JStr → Option Folder

/-- `scanState` of the iterative scanner: FIFO queue of folder ids, the
accumulated `foundServers` object, and the per-folder processed-file names. -/
structure ScanState where
  scanQueue : List JStr
  foundServers : ServersMap
  processedFiles : List (JStr × List JStr)
deriving DecidableEq

/-- `scanState.processedFiles[fid] || []`. -/
def pfGet (pf : List (JStr × List JStr)) (fid : JStr) : List JStr :=
  (alistGet pf fid).getD []

/-- `scanState.processedFiles[fid] = v` (overwrite in place or append). -/
def pfSet (pf : List (JStr × List JStr)) (fid : JStr) (v : List JStr) :
    List (JStr × List JStr) :=
  if alistHas pf fid then pf.map (fun p => if p.1 == fid then (fid, v) else p)
  else pf ++ [(fid, v)]

/-- `delete scanState.processedFiles[fid]`. -/
def pfDel (pf : List (JStr × List JStr)) (fid : JStr) :
    List (JStr × List JStr) :=
  pf.filter (fun p => !(p.1 == fid))

/-- Remaining time budget: `none` means the guard never fires; `some b` means
the next `b` guard checks return false and every later one returns true. -/
abbrev Budget := Option Nat

/-- One guard check: returns (time is up, remaining budget). -/
def checkTime : Budget → Bool × Budget
  | none => (false, none)
  | some 0 => (true, some 0)
  | some (b + 1) => (false, some b)

/-- Processing of a single leaf (part_002 lines 284-310): skip if already
processed, if the extension is not `.json`, or if older than the target date;
otherwise merge its `mcpServers` (when parse and shape checks pass) last-wins
into `foundServers` and mark the name processed. -/
def fileFilterStep (d : Nat) (acc : List JStr × ServersMap) (f : FileEntry) :
    List JStr × ServersMap :=
  if f.name ∈ acc.1 then acc
  else if !((str ".json").isSuffixOf f.name) then acc
  else if f.updated < d then acc
  else
    let found2 := match f.servers with
      | some sv => spreadMerge acc.2 sv
      | none => acc.2
    (setAdd acc.1 f.name, found2)

/-- The file loop of one folder (part_002 lines 272-311): before each leaf ask
the guard; on stop return the partial processed set and merge result with the
interrupted flag. -/
def fileLoop (d : Nat) : Budget → List JStr → ServersMap → List FileEntry →
    Budget × List JStr × ServersMap × Bool
  | bd, processed, found, [] => (bd, processed, found, false)
  | bd, processed, found, f :: fs =>
    let tc := checkTime bd
    if tc.1 then (tc.2, processed, found, true)
    else
      let pr := fileFilterStep d (processed, found) f
      fileLoop d tc.2 pr.1 pr.2 fs

/-- `performIterativeScan` (part_002 lines 244-334).  Fuel bounds the number
of folder iterations (`none` result = fuel exhausted; the JS `while` loop has
no such bound).  Per iteration: guard check, pop the head folder; an
inaccessible folder is skipped and its partial state discarded; otherwise run
the file loop; if it was interrupted, write the processed set back, re-insert
the folder at the front of the queue and signal suspension; else drop the
processed set, enqueue the subfolders and continue. -/
def scanLoop (env : DriveEnv) (d : Nat) :
    Nat → Budget → ScanState → Option (ScanState × Bool)
  | fuel, bd, s =>
    match s.scanQueue with
    | [] => some (s, false)
    | fid :: rest =>
      let tc := checkTime bd
      if tc.1 then some (s, true)
      else
        match fuel with
        | 0 => none
        | fuel2 + 1 =>
          match env fid with
          | none =>
            scanLoop env d fuel2 tc.2
              { scanQueue := rest, foundServers := s.foundServers,
                processedFiles := pfDel s.processedFiles fid }
          | some folder =>
            match fileLoop d tc.2 (setOfList (pfGet s.processedFiles fid))
                s.foundServers folder.files with
            | (bd2, p2, f2, intr) =>
              if intr then
                some ({ scanQueue := fid :: rest, foundServers := f2,
                        processedFiles := pfSet s.processedFiles fid p2 }, true)
              else
                scanLoop env d fuel2 bd2
                  { scanQueue := rest ++ folder.subs, foundServers := f2,
                    processedFiles := pfDel s.processedFiles fid }

-- ==========================================================================
-- String utilities shared by validation and the Publisher
-- ==========================================================================

/-- JS whitespace characters relevant to `\s`, `trim` and regex matching. -/
def jsWs (c : Char) : Bool :=
  c = ' ' || c = '\t' || c = '\n' || c = '\r' ||
  c = '\x0b' || c = '\x0c' || c = '\u00A0' || c = '\uFEFF'

/-- JS `String.prototype.trim`. -/
def trimJs (s : JStr) : JStr :=
  ((s.dropWhile jsWs).reverse.dropWhile jsWs).reverse

/-- Characters accepted by the token classes `[a-z0-9_]` used by the category
regex and the YAML key regex. -/
def tokChar (c : Char) : Bool :=
  ('a' ≤ c && c ≤ 'z') || ('0' ≤ c && c ≤ '9') || c = '_'

/-- A run of `n` spaces. -/
def spacesJ (n : Nat) : JStr := List.replicate n ' '

/-- JS `split('\n')`: always at least one (possibly empty) piece, and no piece
contains a newline. -/
def splitNl : JStr → List JStr
  | [] => [[]]
  | c :: t =>
    if c = '\n' then [] :: splitNl t
    else
      match splitNl t with
      | h :: r => (c :: h) :: r
      | [] => [[c]]

/-- JS `join('\n')`. -/
def joinNl : List JStr → JStr
  | [] => []
  | [l] => l
  | l :: l2 :: ls => l ++ '\n' :: joinNl (l2 :: ls)

/-- JS `String.prototype.indexOf`: index of the first occurrence of `pat`,
`none` when absent. -/
def firstIdxOf (pat : JStr) : JStr → Option Nat
  | [] => if pat.isPrefixOf [] then some 0 else none
  | c :: t =>
    if pat.isPrefixOf (c :: t) then some 0
    else
      match firstIdxOf pat t with
      | some i => some (i + 1)
      | none => none

/-- JS `String.prototype.includes`. -/
def infixOfJ (pat s : JStr) : Bool := (firstIdxOf pat s).isSome

-- ==========================================================================
-- Publisher: YAML insertion (part_002 lines 1047-1074, insertIntoYaml)
-- ==========================================================================

/-- Length of the leading JS-whitespace run (`\s` greedy). -/
def wsRun : JStr → Nat
  | [] => 0
  | c :: t => if jsWs c then wsRun t + 1 else 0

/-- Length of the leading `[a-z0-9_]` run. -/
def tokRun : JStr → Nat
  | [] => 0
  | c :: t => if tokChar c then tokRun t + 1 else 0

/-- Match of the multiline regex `^\s{0,n}<lit>:` at the start of suffix `s`
(the `^` anchor already checked by the caller): since the first character of
`<lit>:` is never whitespace, the greedy bounded `\s` run is forced to the
full whitespace run, which must not exceed `n`.  Returns the match length. -/
def litMatchAt (n : Nat) (lit : JStr) (s : JStr) : Option Nat :=
  let w := wsRun s
  if w ≤ n ∧ (lit ++ [':']).isPrefixOf (s.drop w) then some (w + lit.length + 1)
  else none

/-- Match of the multiline regex `^\s{0,n}[a-z0-9_]+:` at the start of suffix
`s` (same forced-run reasoning: token characters and `:` are not whitespace). -/
def keyMatchAt (n : Nat) (s : JStr) : Option Nat :=
  let w := wsRun s
  if w ≤ n then
    let t := tokRun (s.drop w)
    if t ≠ 0 ∧ (s.drop (w + t)).head? = some ':' then some (w + t + 1) else none
  else none

/-- `RegExp.exec` with the `m` flag for an anchored pattern: try the matcher
at every position that starts a line (position 0 of the searched string, or
any position right after a newline), left to right; return the first match's
index and length.  `atLS` says whether the current position starts a line. -/
def findPatAux (m : JStr → Option Nat) : JStr → Bool → Option (Nat × Nat)
  | s, atLS =>
    match (if atLS then m s else none) with
    | some len => some (0, len)
    | none =>
      match s with
      | [] => none
      | c :: t =>
        match findPatAux m t (c = '\n') with
        | some pr => some (pr.1 + 1, pr.2)
        | none => none

/-- Leftmost match of an anchored multiline pattern in a whole string. -/
def findPat (m : JStr → Option Nat) (s : JStr) : Option (Nat × Nat) :=
  findPatAux m s true

/-- Effective indent width: JS `indentSize || DEFAULT_CONFIG.INDENT_SIZE`
(0 is falsy, the default is 2). -/
def effIndent (n : Nat) : Nat := if n = 0 then 2 else n

/-- The entry re-indented for a list item two `indentSize` levels deep
(part_002 lines 1051-1055). -/
def indentEntry (entry : JStr) (n : Nat) : JStr :=
  joinNl ((splitNl (trimJs entry)).map (fun l => spacesJ (n * 2) ++ l))

/-- `insertIntoYaml(yamlContent, category, entry, indentSize)`: find the first
category label at indentation at most `indentSize`; when found, insert the
re-indented entry just before the next same-level key (or at end of file);
otherwise append a brand-new category block at end of file. -/
def insertIntoYaml (yaml cat entry : JStr) (indentSize : Nat) : JStr :=
  let n := effIndent indentSize
  let indented := indentEntry entry n
  match findPat (litMatchAt n cat) yaml with
  | some pr =>
    let startIdx := pr.1 + pr.2
    let insertPos :=
      match findPat (keyMatchAt n) (yaml.drop startIdx) with
      | some pr2 => startIdx + pr2.1
      | none => yaml.length
    yaml.take insertPos ++ indented ++ '\n' :: yaml.drop insertPos
  | none =>
    yaml ++ '\n' :: (spacesJ n ++ cat ++ ':' :: '\n' :: (indented ++ ['\n']))

/-- The position at which `insertIntoYaml` splices the entry when the
category block exists: the start of the first same-level key after the
category label, or the end of the file. -/
def insertPosOf (yaml cat : JStr) (n : Nat) : Nat :=
  match findPat (litMatchAt n cat) yaml with
  | some pr =>
    (match findPat (keyMatchAt n) (yaml.drop (pr.1 + pr.2)) with
     | some pr2 => pr.1 + pr.2 + pr2.1
     | none => yaml.length)
  | none => yaml.length

/-- Whether position `q` of `s` starts a line, where `atLS` says whether
position 0 does (for a sub-search, position 0 of the searched suffix counts
as a line start in JS regex semantics). -/
def lineStartB (s : JStr) (atLS : Bool) : Nat → Bool
  | 0 => atLS
  | q + 1 => decide (s[q]? = some '\n')

-- ==========================================================================
-- Publisher: unresolved-report markdown insertion (part_002 lines 630-648)
-- ==========================================================================

/-- The dated section built from all accumulated unresolved reports
(part_002 lines 637-638). -/
def buildMdBlock (today : JStr) (mdUpdates : List JStr) : JStr :=
  str "\n## 調査報告 (" ++ today ++ str ")\n" ++
  List.intercalate (str "\n") mdUpdates ++ str "\n---"

/-- Insertion of the dated section into the report file (part_002 lines
641-642): before the first occurrence of `"\n## "`, or at end of file when
there is none. -/
def mdApply (content block : JStr) : JStr :=
  match firstIdxOf (str "\n## ") content with
  | some i => content.take i ++ block ++ content.drop i
  | none => content ++ block

-- ==========================================================================
-- Trigger management (part_002 lines 882-918)
-- ==========================================================================

/-- The trigger store and the continuation property: each project trigger is
(unique id, was it created by `setContinuationTrigger`); `contProp` is the
`CONTINUATION_TRIGGER_ID` script property; `nextId` generates fresh unique
ids. -/
structure TrigWorld where
  triggers : List (Nat × Bool)
  contProp : Option Nat
  nextId : Nat
deriving DecidableEq

/-- `ScriptApp.deleteTrigger` inside the lookup loop: remove the first
trigger whose unique id matches, then `break`. -/
def eraseFirstById : List (Nat × Bool) → Nat → List (Nat × Bool)
  | [], _ => []
  | t :: ts, cid => if t.1 = cid then ts else t :: eraseFirstById ts cid

/-- `deleteContinuationTriggers()`: when no continuation id is stored, return
immediately (deleting nothing); otherwise delete the first project trigger
whose unique id equals the stored id and clear the property. -/
def deleteContinuationTriggers (w : TrigWorld) : TrigWorld :=
  match w.contProp with
  | none => w
  | some cid =>
    { w with triggers := eraseFirstById w.triggers cid, contProp := none }

/-- `setContinuationTrigger()`: first clean up any existing continuation
trigger, then create one new time-based trigger and store its unique id. -/
def setContinuationTrigger (w : TrigWorld) : TrigWorld :=
  let w1 := deleteContinuationTriggers w
  { triggers := w1.triggers ++ [(w1.nextId, true)],
    contProp := some w1.nextId, nextId := w1.nextId + 1 }

/-- A user-configured trigger being installed (not owned by the
orchestrator). -/
def addUserTrigger (w : TrigWorld) : TrigWorld :=
  { w with
    triggers := w.triggers ++ [(w.nextId, false)]
    nextId := w.nextId + 1 }

/-- Operations touching the trigger store. -/
inductive TrigOp where
  | setCont : TrigOp
  | delCont : TrigOp
  | addUser : TrigOp
deriving DecidableEq

/-- Interpretation of one operation. -/
def applyOp : TrigOp → TrigWorld → TrigWorld
  | TrigOp.setCont, w => setContinuationTrigger w
  | TrigOp.delCont, w => deleteContinuationTriggers w
  | TrigOp.addUser, w => addUserTrigger w

/-- Interpretation of an operation sequence, oldest first. -/
def applyOps (ops : List TrigOp) (w : TrigWorld) : TrigWorld :=
  ops.foldl (fun w2 op => applyOp op w2) w

/-- Number of pending continuation triggers recorded in the store. -/
def countCont (ts : List (Nat × Bool)) : Nat :=
  (ts.filter (fun t => t.2)).length

/-- Trigger-store sanity: at most one continuation trigger, any continuation
trigger is the one recorded in the property, ids are below the fresh counter
and pairwise distinct.  Holds of the empty store and is preserved by all
three operations. -/
def goodW (w : TrigWorld) : Prop :=
  countCont w.triggers ≤ 1 ∧
  (∀ t ∈ w.triggers, t.2 = true → w.contProp = some t.1) ∧
  (∀ t ∈ w.triggers, t.1 < w.nextId) ∧
  (w.triggers.map Prod.fst).Nodup

instance (w : TrigWorld) : Decidable (goodW w) := by
  unfold goodW
  infer_instance

-- ==========================================================================
-- Gemini result validation (part_002 lines 1169-1216, validateGeminiResult)
-- ==========================================================================

/-- The structured result returned by the research collaborator, as consumed
by `validateGeminiResult` and the queue loop.  Absent fields are `none`. -/
structure GeminiResult where
  is_found : Bool
  category : Option JStr
  yaml_entry : Option JStr
  unknown_reason_markdown : JStr
  category_description : Option JStr
deriving DecidableEq

/-- JS template interpolation of a possibly-absent string field. -/
def catDisplay (c : Option JStr) : JStr :=
  match c with
  | none => str "undefined"
  | some s => s

/-- JS truthiness of a possibly-absent string (`undefined` and `""` falsy). -/
def jsTruthyStr (o : Option JStr) : Bool :=
  match o with
  | none => false
  | some s => !s.isEmpty

/-- `validateGeminiResult(result, serverName)`: returns (valid, errors).
Checks, in source order: result is an object; when `is_found` is false the
entry checks are skipped; the category passes `^[a-z0-9_]+$`; `yaml_entry` is
a non-empty string whose trimmed form starts with `"- name: "`, contains the
`server_name`/`release_date`/`features` field markers, and, when the
`server_name` marker is present, contains it followed by the requested key. -/
def validateGeminiResult (result : Option GeminiResult) (serverName : JStr) :
    Bool × List JStr :=
  match result with
  | none => (false, [str "Result is null or not an object"])
  | some r =>
    if !r.is_found then (true, [])
    else
      let catOk : Bool := match r.category with
        | some c => !c.isEmpty && c.all tokChar
        | none => false
      let catErrs : List JStr :=
        if jsTruthyStr r.category && catOk then []
        else [str "Invalid category format: \"" ++ catDisplay r.category ++
              str "\" (must be snake_case)"]
      let entryErrs : List JStr :=
        match r.yaml_entry with
        | none => [str "yaml_entry is missing or not a string"]
        | some e =>
          if e.isEmpty then [str "yaml_entry is missing or not a string"]
          else
            let trimmed := trimJs e
            let e1 := if (str "- name: ").isPrefixOf trimmed then []
              else [str "yaml_entry must start with \"- name: \", got: \"" ++
                    trimmed.take 30 ++ str "...\""]
            let e2 := if infixOfJ (str "server_name: ") trimmed then []
              else [str "yaml_entry missing \"server_name\" field"]
            let e3 := if infixOfJ (str "release_date: ") trimmed then []
              else [str "yaml_entry missing \"release_date\" field"]
            let e4 := if infixOfJ (str "features: ") trimmed then []
              else [str "yaml_entry missing \"features\" field"]
            let e5 := if infixOfJ (str "server_name: ") trimmed &&
                !(infixOfJ (str "server_name: " ++ serverName) trimmed) then
                [str "yaml_entry has wrong server_name (expected: " ++
                 serverName ++ str ")"]
              else []
            e1 ++ e2 ++ e3 ++ e4 ++ e5
      let errors := catErrs ++ entryErrs
      (errors.isEmpty, errors)

-- ==========================================================================
-- Research loop (part_002 lines 520-601, Phase 2 of main)
-- ==========================================================================

/-- Environment of the research loop: the frozen session snapshot
(`mcpData.mcpServers`) and the research collaborator (`none` models a call
that fails outright: transport error or malformed envelope).  The collaborator
only reads, so within one session it is a function of the key. -/
structure ResearchEnv where
  session : ServersMap
  research : JStr → Option GeminiResult

/-- In-memory and persisted state of the research loop.  `pQueue`, `pYaml`
and `pMd` are the durable script properties `PROCESSING_QUEUE` and the two
halves of `COMMITTED_RESULTS`; the loop persists them together after every
item, and a suspension persists the in-memory values before returning. -/
structure LoopState where
  queue : List JStr
  yamlUpdates : List (Option JStr × Option JStr)
  mdUpdates : List JStr
  pQueue : List JStr
  pYaml : List (Option JStr × Option JStr)
  pMd : List JStr
deriving DecidableEq

/-- The diagnostic markdown block recorded when validation fails
(part_002 line 571). -/
def errorDetailFor (key : JStr) (errors : List JStr) : JStr :=
  str "### " ++ key ++
  str "\n- 自動調査結果がフォーマット不正のためスキップ\n- エラー: " ++
  List.intercalate (str ", ") errors

/-- One iteration of the queue loop body (part_002 lines 537-597), after the
guard check: pop the head key; if the session lacks it, shift and continue
without persisting; if the research call fails, shift and persist with no
outcome; otherwise validate and append exactly one outcome (a YAML update on
success, a markdown report on validation failure or not-found), then shift
and persist queue and accumulator together. -/
def researchStep (env : ResearchEnv) (s : LoopState) : LoopState :=
  match s.queue with
  | [] => s
  | key :: rest =>
    match alistGet env.session key with
    | none => { s with queue := rest }
    | some _ =>
      match env.research key with
      | none =>
        { queue := rest, yamlUpdates := s.yamlUpdates, mdUpdates := s.mdUpdates,
          pQueue := rest, pYaml := s.yamlUpdates, pMd := s.mdUpdates }
      | some r =>
        let v := validateGeminiResult (some r) key
        let yu := if v.1 then
            (if r.is_found then s.yamlUpdates ++ [(r.category, r.yaml_entry)]
             else s.yamlUpdates)
          else s.yamlUpdates
        let mu := if v.1 then
            (if r.is_found then s.mdUpdates
             else s.mdUpdates ++ [r.unknown_reason_markdown])
          else s.mdUpdates ++ [errorDetailFor key v.2]
        { queue := rest, yamlUpdates := yu, mdUpdates := mu,
          pQueue := rest, pYaml := yu, pMd := mu }

/-- `k` iterations of the queue loop. -/
def runK (env : ResearchEnv) : Nat → LoopState → LoopState
  | 0, s => s
  | k + 1, s => runK env k (researchStep env s)

/-- The keys on which one iteration invokes the research collaborator. -/
def stepLog (env : ResearchEnv) (s : LoopState) : List JStr :=
  match s.queue with
  | [] => []
  | key :: _ =>
    match alistGet env.session key with
    | none => []
    | some _ => [key]

/-- The keys on which `k` iterations invoke the research collaborator. -/
def runLogK (env : ResearchEnv) : Nat → LoopState → List JStr
  | 0, _ => []
  | k + 1, s => stepLog env s ++ runLogK env k (researchStep env s)

/-- A suspension of the queue loop (part_002 lines 529-535): persist the
in-memory queue and accumulator, then return. -/
def suspendPersist (s : LoopState) : LoopState :=
  { s with pQueue := s.queue, pYaml := s.yamlUpdates, pMd := s.mdUpdates }

/-- Loop state at session start: the freshly built queue is persisted
(part_002 line 494) and `COMMITTED_RESULTS` defaults to empty buckets. -/
def initLoopState (q : List JStr) : LoopState :=
  { queue := q, yamlUpdates := [], mdUpdates := [],
    pQueue := q, pYaml := [], pMd := [] }

-- ==========================================================================
-- Concrete instances used by counterexamples and witnesses
-- ==========================================================================

/-- A research environment whose research call always fails outright. -/
def envC1 : ResearchEnv :=
  { session := [(str "a", str "x")], research := fun _ => none }

/-- A well-formed found result for the key `"a"`. -/
def rWitness : GeminiResult :=
  { is_found := true
    category := some (str "text_to_image")
    yaml_entry := some (str "- name: X\n  server_name: a\n  release_date: 2025年10月01日\n  features: f")
    unknown_reason_markdown := str ""
    category_description := none }

/-- A research environment whose research call always succeeds. -/
def envC1w : ResearchEnv :=
  { session := [(str "a", str "x")], research := fun _ => some rWitness }

/-- Environment for the forward-progress claim: key `"b"` present in the
session, research failing. -/
def envC9 : ResearchEnv :=
  { session := [(str "b", str "y")], research := fun _ => none }

/-- A structured result that passes validation although its entry names a
fifth field and its server_name value merely extends the requested key. -/
def cexResult : GeminiResult :=
  { is_found := true
    category := some (str "text_to_image")
    yaml_entry := some (str "- name: X\n  server_name: t2i-kamui-x-pro\n  release_date: 2025年10月01日\n  features: f\n  extra_field: boom")
    unknown_reason_markdown := str ""
    category_description := none }

/-- A structured result whose category fails the token syntax. -/
def rInvalid : GeminiResult :=
  { is_found := true
    category := some (str "Bad Cat")
    yaml_entry := some (str "- name: X\n  server_name: k\n  release_date: 2025年10月01日\n  features: f")
    unknown_reason_markdown := str ""
    category_description := none }

/-- Environment delivering the invalid result for key `"k"`. -/
def envC4w : ResearchEnv :=
  { session := [(str "k", str "d")], research := fun _ => some rInvalid }

/-- A report file whose only second-level heading is its very first line. -/
def mdCexContent : JStr := str "## Old Report\nbody"

/-- YAML content for the insertion witness: two category blocks. -/
def yamlW : JStr :=
  str "categories:\n  text_to_image:\n    - name: A\n  video:\n    - name: B\n"

/-- Leaves of the scan witness tree. -/
def fileA : FileEntry := { name := str "a.json", updated := 100, servers := some [(str "k1", str "v1")] }

def fileB : FileEntry := { name := str "b.json", updated := 100, servers := some [(str "k2", str "v2")] }

def fileC : FileEntry := { name := str "c.json", updated := 100, servers := some [(str "k1", str "v9")] }

/-- The scan witness tree: root `"R"` with two leaves and one child `"S"`. -/
def envScan : DriveEnv := fun fid =>
  if fid = str "R" then some { files := [fileA, fileB], subs := [str "S"] }
  else if fid = str "S" then some { files := [fileC], subs := [] }
  else none

/-- Initial scan state over the witness tree. -/
def s0Scan : ScanState :=
  { scanQueue := [str "R"], foundServers := [], processedFiles := [] }

/-- The scan state persisted when the budget expires after one leaf of `"R"`. -/
def s2Scan : ScanState :=
  { scanQueue := [str "R"], foundServers := [(str "k1", str "v1")],
    processedFiles := [(str "R", [str "a.json"])] }

/-- The final state of an uninterrupted scan over the witness tree. -/
def sfScan : ScanState :=
  { scanQueue := [], foundServers := [(str "k1", str "v9"), (str "k2", str "v2")],
    processedFiles := [] }

-- ==========================================================================
-- Theorems
-- ==========================================================================

/-- Claim C5 (confirmed): both `isTimeUp` implementations return true exactly
when `now - start` exceeds `ceiling - margin` for a fixed margin lying
between 10 and 30 seconds (30000 ms in the orchestrator, 10000 ms in
tools/code.js). -/
theorem isTimeUp_margin_spec :
    ∃ m1 m2 : Int,
      10000 ≤ m1 ∧ m1 ≤ 30000 ∧ 10000 ≤ m2 ∧ m2 ≤ 30000 ∧
      (∀ start limit now : Int,
        isTimeUp start limit now = decide (now - start > limit - m1)) ∧
      (∀ start limit now : Int,
        ToolsCode.isTimeUp start limit now = decide (now - start > limit - m2)) := by
  refine ⟨30000, 10000, by norm_num, by norm_num, by norm_num, by norm_num, ?_, ?_⟩
  · intro start limit now; rfl
  · intro start limit now; rfl

/-- `eraseFirstById` either leaves the list unchanged (no id matches) or
removes exactly the first element carrying the id. -/
theorem eraseFirstById_spec (ts : List (Nat × Bool)) (cid : Nat) :
    ((∀ t ∈ ts, t.1 ≠ cid) ∧ eraseFirstById ts cid = ts) ∨
    (∃ pre t post, ts = pre ++ t :: post ∧ t.1 = cid ∧
      (∀ u ∈ pre, u.1 ≠ cid) ∧ eraseFirstById ts cid = pre ++ post) := by
  induction ts with
  | nil => exact Or.inl ⟨by simp, rfl⟩
  | cons h t ih =>
    by_cases hc : h.1 = cid
    · exact Or.inr ⟨[], h, t, by simp, hc, by simp, by simp [eraseFirstById, hc]⟩
    · rcases ih with ⟨hall, he⟩ | ⟨pre, u, post, heq, hu, hpre, he⟩
      · refine Or.inl ⟨?_, by simp [eraseFirstById, hc, he]⟩
        intro x hx
        rcases List.mem_cons.mp hx with rfl | hx
        · exact hc
        · exact hall x hx
      · refine Or.inr ⟨h :: pre, u, post, by simp [heq], hu, ?_,
          by simp [eraseFirstById, hc, he]⟩
        intro x hx
        rcases List.mem_cons.mp hx with rfl | hx
        · exact hc
        · exact hpre x hx

/-- Claim C10 (confirmed): `deleteContinuationTriggers` is frame-preserving:
with no stored continuation id it deletes nothing and changes nothing; with a
stored id it clears the property and removes at most the first trigger whose
unique id equals the stored one, leaving every other trigger in place and in
order. -/
theorem delete_continuation_frame (w : TrigWorld) :
    (w.contProp = none → deleteContinuationTriggers w = w) ∧
    (∀ cid, w.contProp = some cid →
      (deleteContinuationTriggers w).contProp = none ∧
      (deleteContinuationTriggers w).nextId = w.nextId ∧
      (((∀ t ∈ w.triggers, t.1 ≠ cid) ∧
          (deleteContinuationTriggers w).triggers = w.triggers) ∨
        (∃ pre t post, w.triggers = pre ++ t :: post ∧ t.1 = cid ∧
          (∀ u ∈ pre, u.1 ≠ cid) ∧
          (deleteContinuationTriggers w).triggers = pre ++ post))) := by
  constructor
  · intro h
    simp [deleteContinuationTriggers, h]
  · intro cid h
    refine ⟨by simp [deleteContinuationTriggers, h], by simp [deleteContinuationTriggers, h], ?_⟩
    have := eraseFirstById_spec w.triggers cid
    simpa [deleteContinuationTriggers, h] using this

/-- Closed instance of C10: deleting the continuation trigger of a store with
one user trigger on each side removes only the middle trigger. -/
theorem delete_continuation_frame_witness :
    (deleteContinuationTriggers
      { triggers := [(3, false), (5, true), (7, false)], contProp := some 5,
        nextId := 8 }).contProp = none :=
  ((delete_continuation_frame
    { triggers := [(3, false), (5, true), (7, false)], contProp := some 5,
      nextId := 8 }).2 5 rfl).1

/-- Elements survive `eraseFirstById`. -/
theorem mem_eraseFirstById {ts : List (Nat × Bool)} {cid : Nat} {x : Nat × Bool}
    (hx : x ∈ eraseFirstById ts cid) : x ∈ ts := by
  induction ts with
  | nil => simp [eraseFirstById] at hx
  | cons h t ih =>
    by_cases hc : h.1 = cid
    · simp [eraseFirstById, hc] at hx
      exact List.mem_cons_of_mem h hx
    · simp [eraseFirstById, hc] at hx
      rcases hx with rfl | hx
      · exact List.mem_cons_self _ _
      · exact List.mem_cons_of_mem h (ih hx)

/-- After `deleteContinuationTriggers` on a sane store, no continuation
trigger remains, and the store is still sane. -/
theorem goodW_delete (w : TrigWorld) (hw : goodW w) :
    goodW (deleteContinuationTriggers w) ∧
    countCont (deleteContinuationTriggers w).triggers = 0 := by
  obtain ⟨hcount, hrec, hbound, hnd⟩ := hw
  have hnone : ∀ (ts : List (Nat × Bool)), (∀ t ∈ ts, t.2 ≠ true) →
      countCont ts = 0 := by
    intro ts hts
    have : ts.filter (fun t => t.2) = [] := by
      refine List.filter_eq_nil_iff.mpr ?_
      intro a ha
      simpa using hts a ha
    simp [countCont, this]
  cases hprop : w.contProp with
  | none =>
    have hdel : deleteContinuationTriggers w = w := by
      simp [deleteContinuationTriggers, hprop]
    have hzero : countCont w.triggers = 0 := by
      refine hnone _ ?_
      intro t ht hcont
      have := hrec t ht hcont
      rw [hprop] at this
      exact Option.noConfusion this
    rw [hdel]
    exact ⟨⟨hcount, hrec, hbound, hnd⟩, hzero⟩
  | some cid =>
    have htrig : (deleteContinuationTriggers w).triggers =
        eraseFirstById w.triggers cid := by
      simp [deleteContinuationTriggers, hprop]
    have hmem : ∀ x ∈ (deleteContinuationTriggers w).triggers, x ∈ w.triggers := by
      intro x hx
      rw [htrig] at hx
      exact mem_eraseFirstById hx
    have hnocont : ∀ t ∈ (deleteContinuationTriggers w).triggers, t.2 ≠ true := by
      intro x hx hxc
      have hxw : x ∈ w.triggers := hmem x hx
      have hxid : x.1 = cid := by
        have := hrec x hxw hxc
        rw [hprop] at this
        exact (Option.some.injEq _ _).mp this.symm
      rcases eraseFirstById_spec w.triggers cid with ⟨hall, _⟩ | ⟨pre, u, post, heq, hu, _, he⟩
      · exact hall x hxw hxid
      · rw [htrig, he] at hx
        have hnd2 : ((pre ++ u :: post).map Prod.fst).Nodup := by
          rw [← heq]; exact hnd
        simp only [List.map_append, List.map_cons, List.nodup_append,
          List.nodup_cons] at hnd2
        have hunotin1 : u.1 ∉ pre.map Prod.fst := fun hmem2 =>
          hnd2.2.2 hmem2 (List.mem_cons_self _ _)
        have hunotin2 : u.1 ∉ post.map Prod.fst := hnd2.2.1.1
        rcases List.mem_append.mp hx with hxpre | hxpost
        · exact hunotin1 (List.mem_map.mpr ⟨x, hxpre, by rw [hxid, hu]⟩)
        · exact hunotin2 (List.mem_map.mpr ⟨x, hxpost, by rw [hxid, hu]⟩)
    have hzero : countCont (deleteContinuationTriggers w).triggers = 0 :=
      hnone _ hnocont
    refine ⟨⟨?_, ?_, ?_, ?_⟩, hzero⟩
    · omega
    · intro t ht htc
      exact absurd htc (hnocont t ht)
    · intro t ht
      have : (deleteContinuationTriggers w).nextId = w.nextId := by
        simp [deleteContinuationTriggers, hprop]
      rw [this]
      exact hbound t (hmem t ht)
    · rw [htrig]
      rcases eraseFirstById_spec w.triggers cid with ⟨_, he⟩ | ⟨pre, u, post, heq, _, _, he⟩
      · rw [he]; exact hnd
      · rw [he]
        have hnd2 : ((pre ++ u :: post).map Prod.fst).Nodup := by
          rw [← heq]; exact hnd
        simp only [List.map_append, List.map_cons, List.nodup_append,
          List.nodup_cons] at hnd2 ⊢
        refine ⟨hnd2.1, hnd2.2.1.2, ?_⟩
        intro a ha hb
        exact hnd2.2.2 ha (List.mem_cons_of_mem _ hb)

/-- `deleteContinuationTriggers` keeps the fresh-id counter. -/
theorem delete_nextId (w : TrigWorld) :
    (deleteContinuationTriggers w).nextId = w.nextId := by
  cases hprop : w.contProp <;> simp [deleteContinuationTriggers, hprop]

/-- `deleteContinuationTriggers` only removes triggers. -/
theorem delete_triggers_subset (w : TrigWorld) :
    ∀ x ∈ (deleteContinuationTriggers w).triggers, x ∈ w.triggers := by
  intro x hx
  cases hprop : w.contProp with
  | none => simpa [deleteContinuationTriggers, hprop] using hx
  | some cid =>
    simp only [deleteContinuationTriggers, hprop] at hx
    exact mem_eraseFirstById hx

/-- After `setContinuationTrigger` on a sane store, exactly one continuation
trigger is pending, and the store is still sane. -/
theorem goodW_set (w : TrigWorld) (hw : goodW w) :
    goodW (setContinuationTrigger w) ∧
    countCont (setContinuationTrigger w).triggers = 1 := by
  obtain ⟨hgood1, hzero⟩ := goodW_delete w hw
  obtain ⟨hc1, hr1, hb1, hn1⟩ := hgood1
  have hnext : (deleteContinuationTriggers w).nextId = w.nextId := delete_nextId w
  have hcone : countCont (setContinuationTrigger w).triggers = 1 := by
    simp only [setContinuationTrigger, countCont, List.filter_append,
      List.length_append]
    simp only [countCont] at hzero
    simp [hzero]
  refine ⟨⟨?_, ?_, ?_, ?_⟩, hcone⟩
  · omega
  · intro t ht htc
    simp only [setContinuationTrigger, List.mem_append, List.mem_singleton] at ht
    rcases ht with ht | rfl
    · exfalso
      have : countCont (deleteContinuationTriggers w).triggers ≠ 0 := by
        have : t ∈ (deleteContinuationTriggers w).triggers.filter (fun t2 => t2.2) :=
          List.mem_filter.mpr ⟨ht, by simp [htc]⟩
        intro hz
        simp only [countCont, List.length_eq_zero] at hz
        rw [hz] at this
        exact List.not_mem_nil _ this
      exact this hzero
    · rfl
  · intro t ht
    simp only [setContinuationTrigger, List.mem_append, List.mem_singleton] at ht
    rcases ht with ht | rfl
    · have := hb1 t ht
      simp only [setContinuationTrigger]
      omega
    · simp only [setContinuationTrigger]
      omega
  · simp only [setContinuationTrigger, List.map_append, List.map_cons,
      List.map_nil]
    rw [List.nodup_append]
    refine ⟨hn1, List.nodup_singleton _, ?_⟩
    intro a ha hb
    simp only [List.mem_singleton] at hb
    subst hb
    rcases List.mem_map.mp ha with ⟨t, ht, hfst⟩
    have := hb1 t ht
    omega

/-- Installing a user trigger keeps the store sane and adds no continuation
trigger. -/
theorem goodW_add (w : TrigWorld) (hw : goodW w) :
    goodW (addUserTrigger w) ∧
    countCont (addUserTrigger w).triggers = countCont w.triggers := by
  obtain ⟨hc, hr, hb, hn⟩ := hw
  have hcnt : countCont (addUserTrigger w).triggers = countCont w.triggers := by
    simp [addUserTrigger, countCont, List.filter_append]
  refine ⟨⟨?_, ?_, ?_, ?_⟩, hcnt⟩
  · omega
  · intro t ht htc
    simp only [addUserTrigger, List.mem_append, List.mem_singleton] at ht
    rcases ht with ht | rfl
    · exact hr t ht htc
    · exact absurd htc (by simp)
  · intro t ht
    simp only [addUserTrigger, List.mem_append, List.mem_singleton] at ht
    rcases ht with ht | rfl
    · have := hb t ht
      simp only [addUserTrigger]
      omega
    · simp only [addUserTrigger]
      omega
  · simp only [addUserTrigger, List.map_append, List.map_cons, List.map_nil]
    rw [List.nodup_append]
    refine ⟨hn, List.nodup_singleton _, ?_⟩
    intro a ha hb2
    simp only [List.mem_singleton] at hb2
    subst hb2
    rcases List.mem_map.mp ha with ⟨t, ht, hfst⟩
    have := hb t ht
    omega

/-- Claim C8 (confirmed): starting from any sane trigger store, any sequence
of suspensions (`setCont`), cleanups (`delCont`) and user trigger
installations keeps at most one pending continuation trigger, and each
suspension leaves exactly one: `setContinuationTrigger` always deletes the
recorded trigger before creating the single new one, so duplicates never
stack. -/
theorem continuation_singleton (ops : List TrigOp) (w : TrigWorld)
    (hw : goodW w) :
    goodW (applyOps ops w) ∧ countCont (applyOps ops w).triggers ≤ 1 ∧
    (∀ w2, goodW w2 → countCont (setContinuationTrigger w2).triggers = 1) := by
  have main : ∀ (ops2 : List TrigOp) (w2 : TrigWorld), goodW w2 →
      goodW (applyOps ops2 w2) := by
    intro ops2
    induction ops2 with
    | nil => intro w2 hw2; exact hw2
    | cons op rest ih =>
      intro w2 hw2
      have hstep : goodW (applyOp op w2) := by
        cases op with
        | setCont => exact (goodW_set w2 hw2).1
        | delCont => exact (goodW_delete w2 hw2).1
        | addUser => exact (goodW_add w2 hw2).1
      simpa [applyOps] using ih (applyOp op w2) hstep
  refine ⟨main ops w hw, (main ops w hw).1, ?_⟩
  intro w2 hw2
  exact (goodW_set w2 hw2).2

/-- Closed instance of C8: six operations from the empty store, including
three consecutive suspensions, leave at most one pending continuation. -/
theorem continuation_singleton_witness :
    countCont (applyOps
      [TrigOp.setCont, TrigOp.addUser, TrigOp.setCont, TrigOp.setCont,
       TrigOp.delCont, TrigOp.setCont]
      { triggers := [], contProp := none, nextId := 0 }).triggers ≤ 1 :=
  (continuation_singleton
    [TrigOp.setCont, TrigOp.addUser, TrigOp.setCont, TrigOp.setCont,
     TrigOp.delCont, TrigOp.setCont]
    { triggers := [], contProp := none, nextId := 0 } (by decide)).2.1

/-- Every branch of the loop body removes exactly the head of the queue. -/
theorem researchStep_queue (env : ResearchEnv) (s : LoopState) :
    (researchStep env s).queue = s.queue.tail := by
  cases hq : s.queue with
  | nil => simp [researchStep, hq]
  | cons key rest =>
    simp only [researchStep, hq, List.tail_cons]
    cases halist : alistGet env.session key with
    | none => rfl
    | some v =>
      cases hres : env.research key with
      | none => rfl
      | some r => rfl

/-- After `k` iterations the queue is the original queue without its first
`k` elements. -/
theorem runK_queue (env : ResearchEnv) :
    ∀ (k : Nat) (s : LoopState), (runK env k s).queue = s.queue.drop k := by
  intro k
  induction k with
  | zero => intro s; rfl
  | succ k ih =>
    intro s
    have h1 : runK env (k + 1) s = runK env k (researchStep env s) := rfl
    rw [h1, ih, researchStep_queue]
    rw [← List.drop_one, List.drop_drop]
    ring_nf

/-- When every queued key has session data and a succeeding research call,
each iteration removes one key and appends exactly one outcome, so the sum
queue length plus outcome count is invariant. -/
theorem runK_sum (env : ResearchEnv) :
    ∀ (k : Nat) (s : LoopState), k ≤ s.queue.length →
    (∀ key ∈ s.queue, (alistGet env.session key).isSome = true ∧
      (env.research key).isSome = true) →
    (runK env k s).queue.length + (runK env k s).yamlUpdates.length +
      (runK env k s).mdUpdates.length
      = s.queue.length + s.yamlUpdates.length + s.mdUpdates.length := by
  intro k
  induction k with
  | zero => intro s _ _; rfl
  | succ k ih =>
    intro s hk hall
    cases hq : s.queue with
    | nil => rw [hq] at hk; exact absurd hk (by simp)
    | cons key rest =>
      have hkey := hall key (by rw [hq]; exact List.mem_cons_self _ _)
      rcases Option.isSome_iff_exists.mp hkey.1 with ⟨v, hv⟩
      rcases Option.isSome_iff_exists.mp hkey.2 with ⟨r, hr⟩
      have hstepq : (researchStep env s).queue = rest := by
        rw [researchStep_queue, hq]
        rfl
      have hstepl : (researchStep env s).yamlUpdates.length +
          (researchStep env s).mdUpdates.length
          = s.yamlUpdates.length + s.mdUpdates.length + 1 := by
        simp only [researchStep, hq, hv, hr]
        split_ifs <;> simp <;> try omega
      have hstep : (researchStep env s).queue = rest ∧
          (researchStep env s).yamlUpdates.length +
            (researchStep env s).mdUpdates.length
            = s.yamlUpdates.length + s.mdUpdates.length + 1 := ⟨hstepq, hstepl⟩
      have h1 : runK env (k + 1) s = runK env k (researchStep env s) := rfl
      have hrest : k ≤ (researchStep env s).queue.length := by
        rw [hstep.1]
        have : s.queue.length = rest.length + 1 := by rw [hq]; simp
        omega
      have hall2 : ∀ key2 ∈ (researchStep env s).queue,
          (alistGet env.session key2).isSome = true ∧
          (env.research key2).isSome = true := by
        intro key2 hk2
        rw [hstep.1] at hk2
        exact hall key2 (by rw [hq]; exact List.mem_cons_of_mem _ hk2)
      have hfin := ih (researchStep env s) hrest hall2
      rw [h1]
      rw [hstep.1] at hfin
      have hlen : (key :: rest).length = rest.length + 1 := by simp
      omega

/-- Claim C1, amended (corrected): after any number `k` of completed
iterations (each interruption point persists the in-memory state, so the
state at the `k`-th interruption point is `suspendPersist` of `runK k`), the
persisted queue length plus the number of processed items equals the original
queue length; and when every queued item has session data and a usable
research result, the persisted queue length plus the number of accumulated
outcomes (yamlUpdates plus mdUpdates) equals the original queue length.  The
unconditional accumulator equation of the original claim fails when a
research call fails outright (see the counterexample). -/
theorem research_queue_drain (env : ResearchEnv) (q0 : List JStr) (k : Nat)
    (hk : k ≤ q0.length) :
    (suspendPersist (runK env k (initLoopState q0))).pQueue.length + k
      = q0.length ∧
    ((∀ key ∈ q0, (alistGet env.session key).isSome = true ∧
        (env.research key).isSome = true) →
      (suspendPersist (runK env k (initLoopState q0))).pQueue.length +
        ((suspendPersist (runK env k (initLoopState q0))).pYaml.length +
         (suspendPersist (runK env k (initLoopState q0))).pMd.length)
        = q0.length) := by
  have hq : (runK env k (initLoopState q0)).queue = q0.drop k := by
    rw [runK_queue]; rfl
  constructor
  · simp only [suspendPersist, hq]
    rw [List.length_drop]
    omega
  · intro hall
    have hsum := runK_sum env k (initLoopState q0)
      (by simpa [initLoopState] using hk)
      (by simpa [initLoopState] using hall)
    have e1 : (initLoopState q0).queue = q0 := rfl
    have e2 : (initLoopState q0).yamlUpdates = [] := rfl
    have e3 : (initLoopState q0).mdUpdates = [] := rfl
    rw [e1, e2, e3] at hsum
    have e4 : (suspendPersist (runK env k (initLoopState q0))).pQueue
        = (runK env k (initLoopState q0)).queue := rfl
    have e5 : (suspendPersist (runK env k (initLoopState q0))).pYaml
        = (runK env k (initLoopState q0)).yamlUpdates := rfl
    have e6 : (suspendPersist (runK env k (initLoopState q0))).pMd
        = (runK env k (initLoopState q0)).mdUpdates := rfl
    rw [e4, e5, e6]
    simp only [List.length_nil] at hsum
    omega

/-- Counterexample to claim C1 as stated: a queue of one item whose research
call fails outright is drained without any outcome being accumulated, so the
persisted queue length plus the accumulated outcomes is 0, not the original
queue length 1. -/
theorem research_drain_cex :
    ¬ ((suspendPersist (runK envC1 1 (initLoopState [str "a"]))).pQueue.length +
        ((suspendPersist (runK envC1 1 (initLoopState [str "a"]))).pYaml.length +
         (suspendPersist (runK envC1 1 (initLoopState [str "a"]))).pMd.length)
       = (initLoopState [str "a"]).queue.length) := by
  decide

/-- Closed instance of the amended C1 on a succeeding environment. -/
theorem research_queue_drain_witness :
    (suspendPersist (runK envC1w 1 (initLoopState [str "a"]))).pQueue.length +
      ((suspendPersist (runK envC1w 1 (initLoopState [str "a"]))).pYaml.length +
       (suspendPersist (runK envC1w 1 (initLoopState [str "a"]))).pMd.length)
      = 1 :=
  (research_queue_drain envC1w [str "a"] 1 (by decide)).2 (by decide)

/-- Keys handed to the research collaborator all come from the queue. -/
theorem runLogK_subset (env : ResearchEnv) :
    ∀ (n : Nat) (s : LoopState) (x : JStr),
      x ∈ runLogK env n s → x ∈ s.queue := by
  intro n
  induction n with
  | zero => intro s x hx; exact absurd hx (List.not_mem_nil x)
  | succ n ih =>
    intro s x hx
    rcases List.mem_append.mp hx with hx | hx
    · cases hq : s.queue with
      | nil =>
        simp only [stepLog, hq] at hx
        exact absurd hx (List.not_mem_nil x)
      | cons key rest =>
        simp only [stepLog, hq] at hx
        cases halist : alistGet env.session key with
        | none =>
          simp only [halist] at hx
          exact absurd hx (List.not_mem_nil x)
        | some v =>
          simp only [halist] at hx
          rw [List.mem_singleton.mp hx]
          exact List.mem_cons_self _ _
    · have := ih (researchStep env s) x hx
      rw [researchStep_queue] at this
      exact List.mem_of_mem_tail this

/-- Claim C9 (confirmed): when the research call for the head key fails
outright, that key is still dequeued, the shortened queue and the unchanged
accumulator are persisted, no outcome is appended to either bucket, and the
collaborator is never invoked on that key again during the rest of the run. -/
theorem research_failure_forward_progress (env : ResearchEnv) (s : LoopState)
    (key : JStr) (rest : List JStr)
    (hq : s.queue = key :: rest)
    (hinfo : (alistGet env.session key).isSome = true)
    (hres : env.research key = none)
    (hnotin : key ∉ rest) :
    (researchStep env s).queue = rest ∧
    (researchStep env s).pQueue = rest ∧
    (researchStep env s).yamlUpdates = s.yamlUpdates ∧
    (researchStep env s).mdUpdates = s.mdUpdates ∧
    (researchStep env s).pYaml = s.yamlUpdates ∧
    (researchStep env s).pMd = s.mdUpdates ∧
    ∀ n, key ∉ runLogK env n (researchStep env s) := by
  rcases Option.isSome_iff_exists.mp hinfo with ⟨v, hv⟩
  have hstep : researchStep env s =
      { queue := rest, yamlUpdates := s.yamlUpdates, mdUpdates := s.mdUpdates,
        pQueue := rest, pYaml := s.yamlUpdates, pMd := s.mdUpdates } := by
    simp [researchStep, hq, hv, hres]
  refine ⟨by rw [hstep], by rw [hstep], by rw [hstep], by rw [hstep],
    by rw [hstep], by rw [hstep], ?_⟩
  intro n hmem
  have := runLogK_subset env n (researchStep env s) key hmem
  rw [hstep] at this
  exact hnotin this

/-- Closed instance of C9: failing research on the only queued key empties
the queue and the key is absent from the rest of the run's research calls. -/
theorem research_failure_forward_progress_witness :
    (researchStep envC9 (initLoopState [str "b"])).queue = [] ∧
    str "b" ∉ runLogK envC9 3 (researchStep envC9 (initLoopState [str "b"])) :=
  ⟨(research_failure_forward_progress envC9 (initLoopState [str "b"])
      (str "b") [] rfl (by decide) rfl (by decide)).1,
   (research_failure_forward_progress envC9 (initLoopState [str "b"])
      (str "b") [] rfl (by decide) rfl (by decide)).2.2.2.2.2.2 3⟩

/-- Soundness and leftmost-ness of `firstIdxOf`: a found index carries an
occurrence and no occurrence lies before it. -/
theorem firstIdxOf_some (pat : JStr) :
    ∀ (s : JStr) (i : Nat), firstIdxOf pat s = some i →
      pat.isPrefixOf (s.drop i) = true ∧
      ∀ j, j < i → pat.isPrefixOf (s.drop j) = false := by
  intro s
  induction s with
  | nil =>
    intro i hi
    simp only [firstIdxOf] at hi
    by_cases hp : pat.isPrefixOf ([] : JStr)
    · rw [if_pos hp] at hi
      cases hi
      exact ⟨by simpa using hp, fun j hj => absurd hj (Nat.not_lt_zero j)⟩
    · rw [if_neg hp] at hi
      exact Option.noConfusion hi
  | cons c t ih =>
    intro i hi
    simp only [firstIdxOf] at hi
    by_cases hp : pat.isPrefixOf (c :: t)
    · rw [if_pos hp] at hi
      cases hi
      exact ⟨by simpa using hp, fun j hj => absurd hj (Nat.not_lt_zero j)⟩
    · rw [if_neg hp] at hi
      cases hrec : firstIdxOf pat t with
      | none => rw [hrec] at hi; exact Option.noConfusion hi
      | some i2 =>
        rw [hrec] at hi
        have hieq : i = i2 + 1 := by cases hi; rfl
        subst hieq
        obtain ⟨h1, h2⟩ := ih i2 hrec
        refine ⟨by simpa using h1, ?_⟩
        intro j hj
        cases j with
        | zero =>
          simp only [List.drop_zero]
          exact Bool.eq_false_iff.mpr (fun hc => hp hc)
        | succ j2 =>
          have := h2 j2 (Nat.lt_of_succ_lt_succ hj)
          simpa using this

/-- Completeness of `firstIdxOf`: a `none` answer means no occurrence. -/
theorem firstIdxOf_none (pat : JStr) :
    ∀ (s : JStr), firstIdxOf pat s = none →
      ∀ j, pat.isPrefixOf (s.drop j) = false := by
  intro s
  induction s with
  | nil =>
    intro hn j
    simp only [firstIdxOf] at hn
    by_cases hp : pat.isPrefixOf ([] : JStr)
    · rw [if_pos hp] at hn; exact Option.noConfusion hn
    · simpa using Bool.eq_false_iff.mpr (fun hc => hp hc)
  | cons c t ih =>
    intro hn j
    simp only [firstIdxOf] at hn
    by_cases hp : pat.isPrefixOf (c :: t)
    · rw [if_pos hp] at hn; exact Option.noConfusion hn
    · rw [if_neg hp] at hn
      cases hrec : firstIdxOf pat t with
      | some i2 => rw [hrec] at hn; exact Option.noConfusion hn
      | none =>
        cases j with
        | zero =>
          simp only [List.drop_zero]
          exact Bool.eq_false_iff.mpr (fun hc => hp hc)
        | succ j2 =>
          have := ih hrec j2
          simpa using this

/-- Claim C7, amended (corrected): committing the unresolved reports
concatenates them into one dated section and inserts it immediately before
the first occurrence of a second-level heading preceded by a newline (the
substring scanned for is `"\n## "`), leaving the surrounding bytes intact;
when no such occurrence exists — in particular even when the file's only
second-level heading is its very first line — the section is appended at the
end of the file. -/
theorem md_insert_spec (content today : JStr) (mds : List JStr) :
    (∀ i, firstIdxOf (str "\n## ") content = some i →
      mdApply content (buildMdBlock today mds)
        = content.take i ++ buildMdBlock today mds ++ content.drop i ∧
      (str "\n## ").isPrefixOf (content.drop i) = true ∧
      ∀ j, j < i → (str "\n## ").isPrefixOf (content.drop j) = false) ∧
    (firstIdxOf (str "\n## ") content = none →
      mdApply content (buildMdBlock today mds)
        = content ++ buildMdBlock today mds ∧
      ∀ j, (str "\n## ").isPrefixOf (content.drop j) = false) := by
  constructor
  · intro i hi
    obtain ⟨h1, h2⟩ := firstIdxOf_some _ content i hi
    refine ⟨?_, h1, h2⟩
    simp only [mdApply, hi]
  · intro hn
    refine ⟨?_, firstIdxOf_none _ content hn⟩
    simp only [mdApply, hn]

/-- Counterexample to claim C7 as stated: a report file that starts with a
second-level heading at byte 0 contains a second-level heading, yet the
section is appended after it at the end of the file and not inserted before
it. -/
theorem md_insert_cex :
    mdApply mdCexContent (buildMdBlock (str "2026-01-01") [str "r1"])
      = mdCexContent ++ buildMdBlock (str "2026-01-01") [str "r1"] ∧
    (str "## ").isPrefixOf mdCexContent = true ∧
    mdApply mdCexContent (buildMdBlock (str "2026-01-01") [str "r1"])
      ≠ buildMdBlock (str "2026-01-01") [str "r1"] ++ mdCexContent := by
  refine ⟨by decide, by decide, by decide⟩

/-- Closed instance of the amended C7: on a file whose first `"\n## "` is at
index 4, the dated section lands exactly there. -/
theorem md_insert_spec_witness :
    mdApply (str "# T\n\n## old\nbody") (buildMdBlock (str "D") [str "r1"])
      = (str "# T\n\n## old\nbody").take 4 ++ buildMdBlock (str "D") [str "r1"]
        ++ (str "# T\n\n## old\nbody").drop 4 :=
  ((md_insert_spec (str "# T\n\n## old\nbody") (str "D") [str "r1"]).1 4
    (by decide)).1

/-- An else-error branch is empty exactly when its condition holds. -/
theorem ite_nil_iff {b : Prop} [Decidable b] (x : JStr) :
    ((if b then ([] : List JStr) else [x]) = [] ↔ b) := by
  by_cases h : b
  · simp [h]
  · simp [h]

/-- A then-error branch is empty exactly when its condition fails. -/
theorem ite_nil_iff2 {b : Prop} [Decidable b] (x : JStr) :
    ((if b then [x] else ([] : List JStr)) = [] ↔ ¬b) := by
  by_cases h : b
  · simp [h]
  · simp [h]

/-- Claim C4, amended (corrected): a found result is accepted exactly when
its category is a nonempty `[a-z0-9_]` token, its entry is a nonempty string
whose trimmed form starts with the `"- name: "` marker, contains the
`server_name`, `release_date` and `features` field markers, and contains
`"server_name: "` immediately followed by the requested key.  Additional
fields beyond the four are not rejected and a server_name value merely
extending the key also passes (see the counterexample).  Whenever validation
fails, the queue loop appends a diagnostic report to `mdUpdates` and leaves
`yamlUpdates` untouched, so no published entry is produced. -/
theorem validate_gemini_spec (r : GeminiResult) (key : JStr) :
    ((validateGeminiResult (some r) key).1 = true ↔
      (r.is_found = false ∨
        ((∃ c, r.category = some c ∧ c ≠ [] ∧ c.all tokChar = true) ∧
         (∃ e, r.yaml_entry = some e ∧ e ≠ [] ∧
           (str "- name: ").isPrefixOf (trimJs e) = true ∧
           infixOfJ (str "server_name: ") (trimJs e) = true ∧
           infixOfJ (str "server_name: " ++ key) (trimJs e) = true ∧
           infixOfJ (str "release_date: ") (trimJs e) = true ∧
           infixOfJ (str "features: ") (trimJs e) = true)))) ∧
    (∀ (env : ResearchEnv) (s : LoopState) (v : JStr) (rest : List JStr),
      s.queue = key :: rest → alistGet env.session key = some v →
      env.research key = some r →
      (validateGeminiResult (some r) key).1 = false →
      (researchStep env s).yamlUpdates = s.yamlUpdates ∧
      (researchStep env s).pYaml = s.yamlUpdates ∧
      (researchStep env s).mdUpdates
        = s.mdUpdates ++ [errorDetailFor key (validateGeminiResult (some r) key).2] ∧
      (researchStep env s).pMd
        = s.mdUpdates ++ [errorDetailFor key (validateGeminiResult (some r) key).2]) := by
  constructor
  · cases hfound : r.is_found with
    | false => simp [validateGeminiResult, hfound]
    | true =>
      cases hcat : r.category with
      | none => simp [validateGeminiResult, hfound, hcat, jsTruthyStr]
      | some c =>
        cases hentry : r.yaml_entry with
        | none => simp [validateGeminiResult, hfound, hcat, hentry]
        | some e =>
          by_cases he : e.isEmpty
          · have he2 : e = [] := List.isEmpty_iff.mp he
            subst he2
            simp [validateGeminiResult, hfound, hcat, hentry]
          · have hene : e ≠ [] := fun h0 => he (by simp [h0])
            simp only [validateGeminiResult, hfound, Bool.not_true,
              Bool.false_eq_true, if_false, hcat, hentry, jsTruthyStr]
            rw [if_neg (show ¬(e.isEmpty = true) from he)]
            simp only [List.isEmpty_iff, List.append_eq_nil, ite_nil_iff,
              ite_nil_iff2, Bool.and_eq_true, Bool.not_eq_true',
              List.isEmpty_eq_false, Option.some.injEq, hfound,
              Bool.true_eq_false, false_or, hene]
            constructor
            · rintro ⟨⟨hcne, _, hall⟩, ⟨⟨⟨hname, hpres⟩, hrel⟩, hfeat⟩, hecho⟩
              refine ⟨⟨c, rfl, hcne, hall⟩, e, rfl, hene, hname, hpres, ?_, hrel, hfeat⟩
              by_cases hech : infixOfJ (str "server_name: " ++ key) (trimJs e) = true
              · exact hech
              · exact absurd ⟨hpres, Bool.eq_false_iff.mpr hech⟩ hecho
            · rintro ⟨⟨c2, hc2, hcne, hall⟩, e2, he2, _, hname, hpres, hecho, hrel, hfeat⟩
              subst hc2
              subst he2
              refine ⟨⟨hcne, hcne, hall⟩, ⟨⟨⟨hname, hpres⟩, hrel⟩, hfeat⟩, ?_⟩
              rintro ⟨_, hfalse⟩
              rw [hecho] at hfalse
              exact Bool.noConfusion hfalse
  · intro env s v rest hq halist hres hinvalid
    have hcond : (validateGeminiResult (some r) key).1 = false := hinvalid
    refine ⟨?_, ?_, ?_, ?_⟩ <;>
      simp [researchStep, hq, halist, hres, hcond]

/-- Counterexample to claim C4 as stated: a result whose entry names a fifth
field (`extra_field`) and whose server_name value (`t2i-kamui-x-pro`) is not
exactly the requested key (`t2i-kamui-x`) still passes validation, and the
queue loop publishes a YAML update for it. -/
theorem validate_gemini_cex :
    (validateGeminiResult (some cexResult) (str "t2i-kamui-x")).1 = true ∧
    infixOfJ (str "extra_field: ") ((cexResult.yaml_entry).getD []) = true ∧
    infixOfJ (str "server_name: t2i-kamui-x-pro")
      ((cexResult.yaml_entry).getD []) = true ∧
    str "t2i-kamui-x-pro" ≠ str "t2i-kamui-x" ∧
    (researchStep
      { session := [(str "t2i-kamui-x", str "d")],
        research := fun _ => some cexResult }
      (initLoopState [str "t2i-kamui-x"])).yamlUpdates
      = [(some (str "text_to_image"), cexResult.yaml_entry)] := by
  refine ⟨by decide, by decide, by decide, by decide, by decide⟩

/-- Closed instance of the amended C4: the invalid-category result is
rejected and recorded as an unresolved report without touching yamlUpdates. -/
theorem validate_gemini_spec_witness :
    (researchStep envC4w (initLoopState [str "k"])).yamlUpdates = [] ∧
    (researchStep envC4w (initLoopState [str "k"])).mdUpdates
      = [errorDetailFor (str "k")
          (validateGeminiResult (some rInvalid) (str "k")).2] :=
  ⟨((validate_gemini_spec rInvalid (str "k")).2 envC4w
      (initLoopState [str "k"]) (str "d") [] rfl (by decide) rfl (by decide)).1,
   by
    have h := ((validate_gemini_spec rInvalid (str "k")).2 envC4w
      (initLoopState [str "k"]) (str "d") [] rfl (by decide) rfl (by decide)).2.2.1
    simpa [initLoopState] using h⟩

/-- Membership is preserved by `setAdd`. -/
theorem setAdd_mem {l : List JStr} {x : JStr} (y : JStr) (hx : x ∈ l) :
    x ∈ setAdd l y := by
  unfold setAdd
  split
  · exact hx
  · exact List.mem_append_left _ hx

/-- The added element is a member of `setAdd`. -/
theorem setAdd_self (l : List JStr) (x : JStr) : x ∈ setAdd l x := by
  unfold setAdd
  split
  · assumption
  · exact List.mem_append_right _ (List.mem_singleton.mpr rfl)

/-- `setAdd` preserves distinctness. -/
theorem setAdd_nodup {l : List JStr} {x : JStr} (hl : l.Nodup) :
    (setAdd l x).Nodup := by
  unfold setAdd
  split
  · exact hl
  · rename_i hx
    simpa [List.nodup_append] using ⟨hl, fun h => hx h⟩

/-- Folding `setAdd` over any list preserves distinctness of the
accumulator. -/
theorem foldl_setAdd_nodup :
    ∀ (l : List JStr) (acc : List JStr), acc.Nodup →
      (l.foldl setAdd acc).Nodup := by
  intro l
  induction l with
  | nil => intro acc h; exact h
  | cons x t ih =>
    intro acc h
    exact ih (setAdd acc x) (setAdd_nodup h)

/-- `setOfList` produces a distinct list. -/
theorem setOfList_nodup (l : List JStr) : (setOfList l).Nodup :=
  foldl_setAdd_nodup l [] List.nodup_nil

/-- Folding `setAdd` over a distinct list disjoint from the accumulator just
appends it. -/
theorem foldl_setAdd_of_nodup :
    ∀ (l : List JStr) (acc : List JStr), l.Nodup → (∀ x ∈ l, x ∉ acc) →
      l.foldl setAdd acc = acc ++ l := by
  intro l
  induction l with
  | nil => intro acc _ _; simp
  | cons x t ih =>
    intro acc hnd hdisj
    have hx : x ∉ acc := hdisj x (List.mem_cons_self _ _)
    have h1 : setAdd acc x = acc ++ [x] := by
      unfold setAdd
      rw [if_neg hx]
    rw [List.foldl_cons, h1]
    rw [List.nodup_cons] at hnd
    have h2 := ih (acc ++ [x]) hnd.2 ?_
    · rw [h2]
      simp
    · intro y hy
      simp only [List.mem_append, List.mem_singleton]
      rintro (hacc | rfl)
      · exact hdisj y (List.mem_cons_of_mem _ hy) hacc
      · exact hnd.1 hy

/-- `new Set(array)` of an already-distinct array is the identity. -/
theorem setOfList_eq_self {l : List JStr} (hl : l.Nodup) : setOfList l = l := by
  unfold setOfList
  rw [foldl_setAdd_of_nodup l [] hl (by simp)]
  simp

/-- Membership in the processed set is preserved by one leaf step. -/
theorem fileFilterStep_mono {d : Nat} {p : List JStr} {f0 : ServersMap}
    {g : FileEntry} {x : JStr} (hx : x ∈ p) :
    x ∈ (fileFilterStep d (p, f0) g).1 := by
  unfold fileFilterStep
  split
  · exact hx
  · split
    · exact hx
    · split
      · exact hx
      · exact setAdd_mem _ hx

/-- One leaf step preserves distinctness of the processed set. -/
theorem fileFilterStep_nodup {d : Nat} {p : List JStr} {f0 : ServersMap}
    {g : FileEntry} (hp : p.Nodup) :
    (fileFilterStep d (p, f0) g).1.Nodup := by
  unfold fileFilterStep
  split
  · exact hp
  · split
    · exact hp
    · split
      · exact hp
      · exact setAdd_nodup hp

/-- An already-processed leaf is skipped without any effect. -/
theorem fileFilterStep_skip {d : Nat} {p : List JStr} {f0 : ServersMap}
    {g : FileEntry} (hg : g.name ∈ p) :
    fileFilterStep d (p, f0) g = (p, f0) := by
  unfold fileFilterStep
  rw [if_pos hg]

/-- Membership in the processed set is preserved by the file loop. -/
theorem fileLoop_mono {d : Nat} :
    ∀ (fs : List FileEntry) (bd : Budget) (p : List JStr) (f : ServersMap)
      (x : JStr), x ∈ p → x ∈ (fileLoop d bd p f fs).2.1 := by
  intro fs
  induction fs with
  | nil => intro bd p f x hx; exact hx
  | cons g gs ih =>
    intro bd p f x hx
    simp only [fileLoop]
    split
    · exact hx
    · exact ih _ _ _ x (fileFilterStep_mono hx)

/-- The file loop preserves distinctness of the processed set. -/
theorem fileLoop_nodup {d : Nat} :
    ∀ (fs : List FileEntry) (bd : Budget) (p : List JStr) (f : ServersMap),
      p.Nodup → (fileLoop d bd p f fs).2.1.Nodup := by
  intro fs
  induction fs with
  | nil => intro bd p f hp; exact hp
  | cons g gs ih =>
    intro bd p f hp
    simp only [fileLoop]
    split
    · exact hp
    · exact ih _ _ _ (fileFilterStep_nodup hp)

/-- Without a budget the file loop always runs to completion. -/
theorem fileLoop_none_shape {d : Nat} :
    ∀ (fs : List FileEntry) (p : List JStr) (f : ServersMap),
      ∃ p2 f2, fileLoop d none p f fs = (none, p2, f2, false) := by
  intro fs
  induction fs with
  | nil => intro p f; exact ⟨p, f, rfl⟩
  | cons g gs ih =>
    intro p f
    simp only [fileLoop, checkTime]
    exact ih _ _

/-- Resume correctness of the file loop: completing an interrupted folder
from its recorded processed set and partial merge gives the same result as
running the folder without interruption, because every leaf handled before
the stop is either recorded in the set or deterministically filtered out
again. -/
theorem fileLoop_resume {d : Nat} :
    ∀ (fs : List FileEntry) (bd : Budget) (p : List JStr) (f : ServersMap)
      (bd2 : Budget) (p2 : List JStr) (f2 : ServersMap),
      fileLoop d bd p f fs = (bd2, p2, f2, true) →
      fileLoop d none p2 f2 fs = fileLoop d none p f fs := by
  intro fs
  induction fs with
  | nil =>
    intro bd p f bd2 p2 f2 h
    simp only [fileLoop] at h
    exact absurd h (by simp)
  | cons g gs ih =>
    intro bd p f bd2 p2 f2 h
    cases bd with
    | none =>
      obtain ⟨p3, f3, h3⟩ := fileLoop_none_shape (d := d) (g :: gs) p f
      rw [h3] at h
      exact absurd h (by simp)
    | some b =>
      cases b with
      | zero =>
        simp [fileLoop, checkTime] at h
        obtain ⟨h1, h2, h3⟩ := h
        subst h2
        subst h3
        rfl
      | succ b2 =>
        simp only [fileLoop, checkTime] at h
        have hrec : fileLoop d (some b2) (fileFilterStep d (p, f) g).1
            (fileFilterStep d (p, f) g).2 gs = (bd2, p2, f2, true) := h
        have hih := ih _ _ _ _ _ _ hrec
        have hskip : fileFilterStep d (p2, f2) g = (p2, f2) := by
          by_cases hmem2 : g.name ∈ p2
          · exact fileFilterStep_skip hmem2
          · by_cases hext : ((str ".json").isSuffixOf g.name) = true
            · by_cases hdate : g.updated < d
              · simp only [fileFilterStep]
                rw [if_neg hmem2, if_neg (by simp [hext]), if_pos hdate]
              · exfalso
                have hin : g.name ∈ (fileFilterStep d (p, f) g).1 := by
                  by_cases hmem : g.name ∈ p
                  · exact fileFilterStep_mono hmem
                  · simp only [fileFilterStep]
                    rw [if_neg hmem, if_neg (by simp [hext]), if_neg hdate]
                    exact setAdd_self _ _
                have hmono := fileLoop_mono (d := d) gs (some b2)
                  (fileFilterStep d (p, f) g).1 (fileFilterStep d (p, f) g).2
                  g.name hin
                rw [hrec] at hmono
                exact hmem2 hmono
            · have hxf : (str ".json").isSuffixOf g.name = false :=
                Bool.eq_false_iff.mpr hext
              simp only [fileFilterStep]
              rw [if_neg hmem2, if_pos (by simp [hxf])]
        have hskip1 : (fileFilterStep d (p2, f2) g).1 = p2 := by rw [hskip]
        have hskip2 : (fileFilterStep d (p2, f2) g).2 = f2 := by rw [hskip]
        simp only [fileLoop, checkTime]
        rw [hskip1, hskip2, hih]
        rfl

/-- A budgeted file loop that was not interrupted computes the same processed
set and merge result as one with no budget. -/
theorem fileLoop_complete {d : Nat} :
    ∀ (fs : List FileEntry) (bd : Budget) (p : List JStr) (f : ServersMap)
      (bd2 : Budget) (p2 : List JStr) (f2 : ServersMap),
      fileLoop d bd p f fs = (bd2, p2, f2, false) →
      fileLoop d none p f fs = (none, p2, f2, false) := by
  intro fs
  induction fs with
  | nil =>
    intro bd p f bd2 p2 f2 h
    simp only [fileLoop] at h
    simp only [fileLoop]
    obtain ⟨h1, h2, h3⟩ : p = p2 ∧ f = f2 ∧ True := by
      refine ⟨?_, ?_, trivial⟩
      · have := congrArg (fun x => x.2.1) h
        simpa using this
      · have := congrArg (fun x => x.2.2.1) h
        simpa using this
    rw [h1, h2]
  | cons g gs ih =>
    intro bd p f bd2 p2 f2 h
    cases bd with
    | none =>
      simp only [fileLoop, checkTime] at h ⊢
      exact ih _ _ _ _ _ _ h
    | some b =>
      cases b with
      | zero =>
        simp [fileLoop, checkTime] at h
      | succ b2 =>
        simp only [fileLoop, checkTime] at h ⊢
        exact ih _ _ _ _ _ _ h

/-- Overwriting the matching entries makes the lookup return the new value. -/
theorem find_map_repl (fid : JStr) (v : List JStr) :
    ∀ pf : List (JStr × List JStr), alistHas pf fid = true →
      alistGet (pf.map (fun p => if p.1 == fid then (fid, v) else p)) fid
        = some v := by
  intro pf
  induction pf with
  | nil => intro h; simp [alistHas] at h
  | cons hd tl ih =>
    intro h
    by_cases hhd : (hd.1 == fid) = true
    · simp [alistGet, List.find?, hhd]
    · have hhd2 : (hd.1 == fid) = false := Bool.eq_false_iff.mpr hhd
      have htl : alistHas tl fid = true := by
        unfold alistHas at h ⊢
        rcases List.any_eq_true.mp h with ⟨q, hq, hq2⟩
        rcases List.mem_cons.mp hq with rfl | hq3
        · exact absurd hq2 (by simpa using hhd)
        · exact List.any_eq_true.mpr ⟨q, hq3, hq2⟩
      simp only [List.map_cons, if_neg hhd]
      unfold alistGet at ih ⊢
      simp only [List.find?, hhd2]
      exact ih htl

/-- Appending a fresh entry makes the lookup return its value when the key
was absent. -/
theorem find_append_absent (fid : JStr) (v : List JStr) :
    ∀ pf : List (JStr × List JStr), alistHas pf fid = false →
      alistGet (pf ++ [(fid, v)]) fid = some v := by
  intro pf
  induction pf with
  | nil => intro _; simp [alistGet, List.find?]
  | cons hd tl ih =>
    intro h
    unfold alistHas at h
    rw [List.any_cons, Bool.or_eq_false_iff] at h
    unfold alistGet at ih ⊢
    simp only [List.cons_append, List.find?, h.1]
    exact ih h.2

/-- Reading back a just-written per-folder processed set. -/
theorem pfGet_pfSet (pf : List (JStr × List JStr)) (fid : JStr)
    (v : List JStr) : pfGet (pfSet pf fid v) fid = v := by
  unfold pfGet pfSet
  by_cases hhas : alistHas pf fid
  · rw [if_pos hhas, find_map_repl fid v pf hhas]
    rfl
  · rw [if_neg hhas,
      find_append_absent fid v pf (Bool.eq_false_iff.mpr hhas)]
    rfl

/-- Filtering out the key erases the difference between the overwritten and
the original association list. -/
theorem filter_map_repl (fid : JStr) (v : List JStr) :
    ∀ pf : List (JStr × List JStr),
      (pf.map (fun p => if p.1 == fid then (fid, v) else p)).filter
        (fun p => !(p.1 == fid))
      = pf.filter (fun p => !(p.1 == fid)) := by
  intro pf
  induction pf with
  | nil => rfl
  | cons hd tl ih =>
    by_cases hhd : (hd.1 == fid) = true
    · simp only [List.map_cons, if_pos hhd]
      rw [List.filter_cons_of_neg (p := fun (q : JStr × List JStr) => !(q.1 == fid)) (by simp),
        List.filter_cons_of_neg (p := fun (q : JStr × List JStr) => !(q.1 == fid)) (by simp [hhd])]
      exact ih
    · have hpos : (fun (q : JStr × List JStr) => !(q.1 == fid)) hd = true := by
        simp only []
        simp [Bool.eq_false_iff.mpr hhd]
      simp only [List.map_cons, if_neg hhd]
      rw [List.filter_cons_of_pos (p := fun (q : JStr × List JStr) => !(q.1 == fid)) hpos,
        List.filter_cons_of_pos (p := fun (q : JStr × List JStr) => !(q.1 == fid)) hpos, ih]

/-- Deleting a folder entry after overwriting it equals deleting it
outright. -/
theorem pfDel_pfSet (pf : List (JStr × List JStr)) (fid : JStr)
    (v : List JStr) : pfDel (pfSet pf fid v) fid = pfDel pf fid := by
  unfold pfDel pfSet
  by_cases hhas : alistHas pf fid
  · rw [if_pos hhas]
    exact filter_map_repl fid v pf
  · rw [if_neg hhas, List.filter_append]
    simp

/-- Unfolding: the scan loop with an empty queue is done. -/
theorem scanLoop_nil (env : DriveEnv) (d fuel : Nat) (bd : Budget)
    (fnd : ServersMap) (pfs : List (JStr × List JStr)) :
    scanLoop env d fuel bd ⟨[], fnd, pfs⟩ = some (⟨[], fnd, pfs⟩, false) := by
  cases fuel with
  | zero => rfl
  | succ n => rfl

/-- Unfolding: the scan loop with no fuel left checks the guard and stops. -/
theorem scanLoop_cons_zero (env : DriveEnv) (d : Nat) (bd : Budget)
    (fid : JStr) (rest : List JStr) (fnd : ServersMap)
    (pfs : List (JStr × List JStr)) :
    scanLoop env d 0 bd ⟨fid :: rest, fnd, pfs⟩ =
      if (checkTime bd).1 then some (⟨fid :: rest, fnd, pfs⟩, true)
      else none := rfl

/-- Unfolding of one folder iteration of the scan loop. -/
theorem scanLoop_cons_succ (env : DriveEnv) (d : Nat) (fuel2 : Nat)
    (bd : Budget) (fid : JStr) (rest : List JStr) (fnd : ServersMap)
    (pfs : List (JStr × List JStr)) :
    scanLoop env d (fuel2 + 1) bd ⟨fid :: rest, fnd, pfs⟩ =
      if (checkTime bd).1 then some (⟨fid :: rest, fnd, pfs⟩, true)
      else
        match env fid with
        | none =>
          scanLoop env d fuel2 (checkTime bd).2 ⟨rest, fnd, pfDel pfs fid⟩
        | some folder =>
          match fileLoop d (checkTime bd).2 (setOfList (pfGet pfs fid)) fnd
              folder.files with
          | (bd2, p2, f2, intr) =>
            if intr then
              some (⟨fid :: rest, f2, pfSet pfs fid p2⟩, true)
            else
              scanLoop env d fuel2 bd2
                ⟨rest ++ folder.subs, f2, pfDel pfs fid⟩ := rfl

/-- More fuel never changes a result the scan loop already produced. -/
theorem scanLoop_fuel_mono (env : DriveEnv) (d : Nat) :
    ∀ (fuel : Nat) (bd : Budget) (s : ScanState) (r : ScanState × Bool),
      scanLoop env d fuel bd s = some r →
      scanLoop env d (fuel + 1) bd s = some r := by
  intro fuel
  induction fuel with
  | zero =>
    intro bd s r h
    obtain ⟨q, fnd, pfs⟩ := s
    cases q with
    | nil => exact h
    | cons fid rest =>
      rw [scanLoop_cons_zero] at h
      by_cases htc : (checkTime bd).1 = true
      · rw [if_pos htc] at h
        rw [scanLoop_cons_succ, if_pos htc]
        exact h
      · rw [if_neg htc] at h
        exact Option.noConfusion h
  | succ f ih =>
    intro bd s r h
    obtain ⟨q, fnd, pfs⟩ := s
    cases q with
    | nil => exact h
    | cons fid rest =>
      rw [scanLoop_cons_succ] at h
      rw [scanLoop_cons_succ]
      by_cases htc : (checkTime bd).1 = true
      · rw [if_pos htc] at h
        rw [if_pos htc]
        exact h
      · rw [if_neg htc] at h
        rw [if_neg htc]
        cases henv : env fid with
        | none =>
          simp only [henv] at h ⊢
          exact ih _ _ _ h
        | some folder =>
          rcases hfl : fileLoop d (checkTime bd).2
              (setOfList (pfGet pfs fid)) fnd folder.files with
            ⟨bd3, p3, f3, intr3⟩
          cases intr3 with
          | true =>
            simp only [henv, hfl] at h ⊢
            exact h
          | false =>
            simp only [henv, hfl] at h ⊢
            exact ih _ _ _ h

/-- Claim C2 (confirmed): interrupting the iterative scanner at any
suspension point (any budget), persisting the scan state carried in the
suspended result, and resuming that state with no time pressure completes to
exactly the state an uninterrupted scan reaches — in particular the same
final `foundServers` mapping. -/
theorem scan_resume_correct (env : DriveEnv) (d : Nat) :
    ∀ (fuel : Nat) (bb : Budget) (s sf s2 : ScanState),
      scanLoop env d fuel none s = some (sf, false) →
      scanLoop env d fuel bb s = some (s2, true) →
      scanLoop env d fuel none s2 = some (sf, false) := by
  intro fuel
  induction fuel with
  | zero =>
    intro bb s sf s2 hfull hint
    obtain ⟨q, fnd, pfs⟩ := s
    cases q with
    | nil =>
      rw [scanLoop_nil] at hint
      exact absurd hint (by simp)
    | cons fid rest =>
      rw [scanLoop_cons_zero, if_neg (by simp [checkTime])] at hfull
      exact Option.noConfusion hfull
  | succ f ih =>
    intro bb s sf s2 hfull hint
    obtain ⟨q, fnd, pfs⟩ := s
    cases q with
    | nil =>
      rw [scanLoop_nil] at hint
      exact absurd hint (by simp)
    | cons fid rest =>
      have htcn : ¬((checkTime (none : Budget)).1 = true) := by simp [checkTime]
      rw [scanLoop_cons_succ, if_neg htcn] at hfull
      cases bb with
      | none =>
        rw [scanLoop_cons_succ, if_neg htcn] at hint
        exact absurd (hfull.symm.trans hint) (by simp)
      | some b =>
        cases b with
        | zero =>
          rw [scanLoop_cons_succ,
            if_pos (show (checkTime (some 0)).1 = true from rfl)] at hint
          have hs2 : s2 = ⟨fid :: rest, fnd, pfs⟩ :=
            (congrArg Prod.fst (Option.some.inj hint)).symm
          rw [hs2, scanLoop_cons_succ, if_neg htcn]
          exact hfull
        | succ b2 =>
          rw [scanLoop_cons_succ,
            if_neg (show ¬((checkTime (some (b2 + 1))).1 = true) by
              simp [checkTime])] at hint
          have htc2 : (checkTime (some (b2 + 1))).2 = some b2 := rfl
          rw [htc2] at hint
          have htc2n : (checkTime (none : Budget)).2 = (none : Budget) := rfl
          rw [htc2n] at hfull
          cases henv : env fid with
          | none =>
            simp only [henv] at hfull hint
            exact scanLoop_fuel_mono env d f none s2 _ (ih _ _ sf s2 hfull hint)
          | some folder =>
            obtain ⟨pN, fN, hshape⟩ :=
              fileLoop_none_shape (d := d) folder.files
                (setOfList (pfGet pfs fid)) fnd
            simp only [henv, hshape] at hfull
            rcases hfl : fileLoop d (some b2) (setOfList (pfGet pfs fid)) fnd
                folder.files with ⟨bd3, p3, f3, intr3⟩
            cases intr3 with
            | true =>
              simp only [henv, hfl] at hint
              have hs2 : s2 = ⟨fid :: rest, f3, pfSet pfs fid p3⟩ :=
                (congrArg Prod.fst (Option.some.inj hint)).symm
              rw [hs2, scanLoop_cons_succ, if_neg htcn, htc2n]
              simp only [henv]
              rw [pfGet_pfSet]
              have hnodup : p3.Nodup := by
                have := fileLoop_nodup (d := d) folder.files (some b2)
                  (setOfList (pfGet pfs fid)) fnd (setOfList_nodup _)
                rw [hfl] at this
                exact this
              rw [setOfList_eq_self hnodup]
              have hresume := fileLoop_resume folder.files (some b2)
                (setOfList (pfGet pfs fid)) fnd bd3 p3 f3 hfl
              rw [hresume]
              simp only [hshape]
              rw [pfDel_pfSet]
              exact hfull
            | false =>
              simp only [henv, hfl] at hint
              have hcomp := fileLoop_complete folder.files (some b2)
                (setOfList (pfGet pfs fid)) fnd bd3 p3 f3 hfl
              rw [hshape] at hcomp
              have hp : pN = p3 := by
                have := congrArg (fun x => x.2.1) hcomp
                simpa using this
              have hf : fN = f3 := by
                have := congrArg (fun x => x.2.2.1) hcomp
                simpa using this
              rw [hp, hf] at hfull
              exact scanLoop_fuel_mono env d f none s2 _
                (ih _ _ sf s2 hfull hint)

/-- Closed instance of C2: with a budget of two guard checks the scan of the
witness tree suspends mid-folder; resuming the persisted state reaches the
same final state as the uninterrupted scan. -/
theorem scan_resume_correct_witness :
    scanLoop envScan 50 10 none s2Scan = some (sfScan, false) :=
  scan_resume_correct envScan 50 10 (some 2) s0Scan sfScan s2Scan
    (by decide) (by decide)

/-- Claim C3 (confirmed): when the guard fires during a folder's file loop,
the scanner returns a suspended state whose queue has that folder re-inserted
at the front, whose per-folder visited map records exactly the leaves
processed so far (read back verbatim on resume), and whose merge result keeps
the partial merges; moreover any leaf recorded as visited is skipped without
effect when the folder is re-processed. -/
theorem scan_suspend_mid_folder (env : DriveEnv) (d fuel : Nat) (bb : Budget)
    (fid : JStr) (rest : List JStr) (fnd : ServersMap)
    (pfs : List (JStr × List JStr)) (folder : Folder)
    (bd2 : Budget) (p2 : List JStr) (f2 : ServersMap)
    (htc : (checkTime bb).1 = false)
    (henv : env fid = some folder)
    (hfl : fileLoop d (checkTime bb).2 (setOfList (pfGet pfs fid)) fnd
        folder.files = (bd2, p2, f2, true)) :
    scanLoop env d (fuel + 1) bb ⟨fid :: rest, fnd, pfs⟩ =
      some (⟨fid :: rest, f2, pfSet pfs fid p2⟩, true) ∧
    pfGet (pfSet pfs fid p2) fid = p2 ∧
    (∀ g ∈ folder.files, ∀ (P : List JStr) (F : ServersMap), g.name ∈ P →
      fileFilterStep d (P, F) g = (P, F)) := by
  refine ⟨?_, pfGet_pfSet pfs fid p2, ?_⟩
  · rw [scanLoop_cons_succ, if_neg (by simp [htc])]
    simp [henv, hfl]
  · intro g _ P F hg
    exact fileFilterStep_skip hg

/-- Closed instance of C3: the witness scan suspends after one leaf of
folder `"R"`, which is re-inserted at the front with `a.json` recorded. -/
theorem scan_suspend_mid_folder_witness :
    scanLoop envScan 50 10 (some 2) s0Scan = some (s2Scan, true) :=
  (scan_suspend_mid_folder envScan 50 9 (some 2) (str "R") [] [] []
    { files := [fileA, fileB], subs := [str "S"] } (some 0) [str "a.json"]
    [(str "k1", str "v1")] (by decide) (by decide) (by decide)).1

/-- Shifting a line-start query past the head character. -/
theorem lineStartB_cons (c : Char) (t : JStr) (atLS : Bool) (q : Nat) :
    lineStartB (c :: t) atLS (q + 1)
      = lineStartB t (decide (c = '\n')) q := by
  cases q with
  | zero => simp [lineStartB]
  | succ q2 => simp [lineStartB]

/-- Unfolding of the pattern search on the empty string. -/
theorem findPatAux_nil (m : JStr → Option Nat) (atLS : Bool) :
    findPatAux m [] atLS =
      match (if atLS then m [] else none) with
      | some len => some (0, len)
      | none => none := by
  conv_lhs => rw [findPatAux]

/-- Unfolding of one position of the pattern search. -/
theorem findPatAux_cons (m : JStr → Option Nat) (c : Char) (t : JStr)
    (atLS : Bool) :
    findPatAux m (c :: t) atLS =
      match (if atLS then m (c :: t) else none) with
      | some len => some (0, len)
      | none =>
        match findPatAux m t (decide (c = '\n')) with
        | some pr => some (pr.1 + 1, pr.2)
        | none => none := by
  conv_lhs => rw [findPatAux]

/-- Soundness and leftmost-ness of the anchored multiline pattern search: a
found match lies at a line start, matches there, is in range, and no earlier
line start matches. -/
theorem findPatAux_some (m : JStr → Option Nat) :
    ∀ (s : JStr) (atLS : Bool) (i len : Nat),
      findPatAux m s atLS = some (i, len) →
      lineStartB s atLS i = true ∧ m (s.drop i) = some len ∧ i ≤ s.length ∧
      ∀ q, q < i → lineStartB s atLS q = true → m (s.drop q) = none := by
  intro s
  induction s with
  | nil =>
    intro atLS i len h
    rw [findPatAux_nil] at h
    cases hif : (if atLS then m [] else none) with
    | none => rw [hif] at h; exact Option.noConfusion h
    | some len0 =>
      rw [hif] at h
      have hi : i = 0 ∧ len = len0 := by
        have := Option.some.inj h
        exact ⟨(congrArg Prod.fst this).symm, (congrArg Prod.snd this).symm⟩
      obtain ⟨rfl, rfl⟩ := hi
      cases atLS with
      | false => rw [if_neg (by simp)] at hif; exact Option.noConfusion hif
      | true =>
        rw [if_pos rfl] at hif
        exact ⟨rfl, hif, Nat.le_refl 0,
          fun q hq _ => absurd hq (Nat.not_lt_zero q)⟩
  | cons c t ih =>
    intro atLS i len h
    rw [findPatAux_cons] at h
    cases hif : (if atLS then m (c :: t) else none) with
    | some len0 =>
      rw [hif] at h
      have hi : i = 0 ∧ len = len0 := by
        have := Option.some.inj h
        exact ⟨(congrArg Prod.fst this).symm, (congrArg Prod.snd this).symm⟩
      obtain ⟨rfl, rfl⟩ := hi
      cases atLS with
      | false => rw [if_neg (by simp)] at hif; exact Option.noConfusion hif
      | true =>
        rw [if_pos rfl] at hif
        exact ⟨rfl, hif, Nat.zero_le _,
          fun q hq _ => absurd hq (Nat.not_lt_zero q)⟩
    | none =>
      rw [hif] at h
      cases hrec : findPatAux m t (decide (c = '\n')) with
      | none => rw [hrec] at h; exact Option.noConfusion h
      | some pr =>
        rw [hrec] at h
        have hi : i = pr.1 + 1 ∧ len = pr.2 := by
          have := Option.some.inj h
          exact ⟨(congrArg Prod.fst this).symm, (congrArg Prod.snd this).symm⟩
        obtain ⟨rfl, rfl⟩ := hi
        obtain ⟨h1, h2, h3, h4⟩ := ih (decide (c = '\n')) pr.1 pr.2
          (by rw [hrec])
        refine ⟨?_, ?_, ?_, ?_⟩
        · rw [lineStartB_cons]
          exact h1
        · simpa using h2
        · simp only [List.length_cons]
          omega
        · intro q hq hls
          cases q with
          | zero =>
            simp only [lineStartB] at hls
            rw [List.drop_zero]
            cases atLS with
            | false => exact absurd hls (by simp)
            | true =>
              rw [if_pos rfl] at hif
              exact hif
          | succ q2 =>
            rw [lineStartB_cons] at hls
            have := h4 q2 (Nat.lt_of_succ_lt_succ hq) hls
            simpa using this

/-- Completeness of the anchored multiline pattern search. -/
theorem findPatAux_none (m : JStr → Option Nat) :
    ∀ (s : JStr) (atLS : Bool), findPatAux m s atLS = none →
      ∀ q, lineStartB s atLS q = true → m (s.drop q) = none := by
  intro s
  induction s with
  | nil =>
    intro atLS h q hls
    rw [findPatAux_nil] at h
    cases hif : (if atLS then m [] else none) with
    | some len0 => rw [hif] at h; exact Option.noConfusion h
    | none =>
      cases q with
      | zero =>
        simp only [lineStartB] at hls
        cases atLS with
        | false => exact absurd hls (by simp)
        | true =>
          rw [if_pos rfl] at hif
          exact hif
      | succ q2 =>
        simp [List.drop_succ_cons]
        cases hm : m [] with
        | none => rfl
        | some l0 =>
          cases atLS with
          | false =>
            simp only [lineStartB] at hls
            exact absurd hls (by simp)
          | true =>
            rw [if_pos rfl, hm] at hif
            exact Option.noConfusion hif
  | cons c t ih =>
    intro atLS h q hls
    rw [findPatAux_cons] at h
    cases hif : (if atLS then m (c :: t) else none) with
    | some len0 => rw [hif] at h; exact Option.noConfusion h
    | none =>
      rw [hif] at h
      cases hrec : findPatAux m t (decide (c = '\n')) with
      | some pr => rw [hrec] at h; exact Option.noConfusion h
      | none =>
        cases q with
        | zero =>
          simp only [lineStartB] at hls
          rw [List.drop_zero]
          cases atLS with
          | false => exact absurd hls (by simp)
          | true =>
            rw [if_pos rfl] at hif
            exact hif
        | succ q2 =>
          rw [lineStartB_cons] at hls
          have := ih (decide (c = '\n')) hrec q2 hls
          simpa using this

/-- `split('\n')` always yields at least one piece. -/
theorem splitNl_ne_nil : ∀ s : JStr, splitNl s ≠ [] := by
  intro s
  cases s with
  | nil => simp [splitNl]
  | cons c t =>
    simp only [splitNl]
    split
    · simp
    · split
      · simp
      · simp

/-- No piece of `split('\n')` contains a newline. -/
theorem splitNl_no_newline : ∀ (s : JStr) (p : JStr), p ∈ splitNl s →
    '\n' ∉ p := by
  intro s
  induction s with
  | nil =>
    intro p hp
    simp only [splitNl, List.mem_singleton] at hp
    simp [hp]
  | cons c t ih =>
    intro p hp
    simp only [splitNl] at hp
    by_cases hc : c = '\n'
    · rw [if_pos hc] at hp
      rcases List.mem_cons.mp hp with rfl | hp2
      · simp
      · exact ih p hp2
    · rw [if_neg hc] at hp
      cases hsp : splitNl t with
      | nil => exact absurd hsp (splitNl_ne_nil t)
      | cons h r =>
        rw [hsp] at hp
        rcases List.mem_cons.mp hp with rfl | hp2
        · intro hmem
          rcases List.mem_cons.mp hmem with heq | hmem2
          · exact hc heq.symm
          · exact ih h (by rw [hsp]; exact List.mem_cons_self _ _) hmem2
        · exact ih p (by rw [hsp]; exact List.mem_cons_of_mem _ hp2)

/-- `split('\n')` of a newline-free string is that string alone. -/
theorem splitNl_of_no_newline : ∀ s : JStr, '\n' ∉ s → splitNl s = [s] := by
  intro s
  induction s with
  | nil => intro _; rfl
  | cons c t ih =>
    intro h
    have hc : ¬(c = '\n') := fun hc2 => h (by rw [hc2]; exact List.mem_cons_self _ _)
    have ht : '\n' ∉ t := fun hm => h (List.mem_cons_of_mem _ hm)
    simp only [splitNl, if_neg hc, ih ht]

/-- Head-append unfolding of `join('\n')`. -/
theorem joinNl_cons_cons (h l2 : JStr) (ls : List JStr) :
    joinNl (h :: l2 :: ls) = h ++ '\n' :: joinNl (l2 :: ls) := rfl

/-- `split('\n')` undoes prepending a newline-free line. -/
theorem splitNl_append_newline : ∀ (h : JStr) (rest : JStr), '\n' ∉ h →
    splitNl (h ++ '\n' :: rest) = h :: splitNl rest := by
  intro h
  induction h with
  | nil => intro rest _; simp [splitNl]
  | cons c t ih =>
    intro rest hno
    have hc : ¬(c = '\n') := fun hc2 =>
      hno (by rw [hc2]; exact List.mem_cons_self _ _)
    have ht : '\n' ∉ t := fun hm => hno (List.mem_cons_of_mem _ hm)
    rw [List.cons_append]
    simp only [splitNl, if_neg hc]
    rw [ih rest ht]

/-- `split('\n')` is a left inverse of `join('\n')` on newline-free pieces. -/
theorem splitNl_joinNl : ∀ ls : List JStr, ls ≠ [] →
    (∀ p ∈ ls, '\n' ∉ p) → splitNl (joinNl ls) = ls := by
  intro ls
  induction ls with
  | nil => intro h _; exact absurd rfl h
  | cons h t ih =>
    intro _ hno
    cases t with
    | nil =>
      show splitNl (joinNl [h]) = [h]
      exact splitNl_of_no_newline h (hno h (List.mem_cons_self _ _))
    | cons l2 ls2 =>
      rw [joinNl_cons_cons,
        splitNl_append_newline h _ (hno h (List.mem_cons_self _ _)),
        ih (by simp) (fun p hp => hno p (List.mem_cons_of_mem _ hp))]

/-- Spaces contain no newline. -/
theorem spacesJ_no_newline (k : Nat) : '\n' ∉ spacesJ k := by
  intro hmem
  have := List.eq_of_mem_replicate hmem
  exact absurd this (by decide)

/-- The lines of the re-indented entry are exactly the trimmed entry's lines,
each prefixed with two levels of indentation. -/
theorem indentEntry_lines (entry : JStr) (n : Nat) :
    splitNl (indentEntry entry n)
      = (splitNl (trimJs entry)).map (fun l => spacesJ (n * 2) ++ l) := by
  unfold indentEntry
  apply splitNl_joinNl
  · intro hmap
    exact splitNl_ne_nil (trimJs entry) (List.map_eq_nil_iff.mp hmap)
  · intro p hp
    rcases List.mem_map.mp hp with ⟨l, hl, rfl⟩
    intro hmem
    rcases List.mem_append.mp hmem with hsp | hlm
    · exact spacesJ_no_newline _ hsp
    · exact splitNl_no_newline (trimJs entry) l hl hlm

/-- Token characters are not JS whitespace. -/
theorem tok_not_ws (c : Char) (h : tokChar c = true) : jsWs c = false := by
  simp only [tokChar, Bool.or_eq_true, Bool.and_eq_true, decide_eq_true_eq] at h
  by_contra hws
  rw [Bool.not_eq_false] at hws
  simp only [jsWs, Bool.or_eq_true, decide_eq_true_eq] at hws
  rcases hws with ((((((h1 | h1) | h1) | h1) | h1) | h1) | h1) | h1 <;>
    subst h1 <;> revert h <;> decide

/-- The whitespace run of spaces followed by anything. -/
theorem wsRun_spaces_append (k : Nat) (x : JStr) :
    wsRun (spacesJ k ++ x) = k + wsRun x := by
  induction k with
  | zero => simp [spacesJ]
  | succ k2 ih =>
    have : spacesJ (k2 + 1) = ' ' :: spacesJ k2 := rfl
    rw [this, List.cons_append]
    simp only [wsRun, jsWs]
    rw [if_pos (by decide)]
    rw [ih]
    omega

/-- A successful literal-label match never runs past the string. -/
theorem litMatchAt_le (n : Nat) (cat t : JStr) (len : Nat)
    (h : litMatchAt n cat t = some len) : len ≤ t.length := by
  simp only [litMatchAt] at h
  split at h
  · rename_i hcond
    have hlen : len = wsRun t + cat.length + 1 := (Option.some.inj h).symm
    have hpre := List.isPrefixOf_iff_prefix.mp hcond.2
    have := List.IsPrefix.length_le hpre
    simp only [List.length_append, List.length_singleton, List.length_drop]
      at this
    omega
  · exact Option.noConfusion h

/-- A freshly appended category block's label line matches the category
pattern at indentation `n` with the expected match length. -/
theorem newBlock_label (n : Nat) (cat rest : JStr)
    (hcat : ∀ c ∈ cat, tokChar c = true) :
    litMatchAt n cat (spacesJ n ++ cat ++ ':' :: rest)
      = some (n + cat.length + 1) := by
  have h0 : wsRun (cat ++ ':' :: rest) = 0 := by
    cases cat with
    | nil =>
      simp only [List.nil_append, wsRun]
      rw [if_neg (by decide)]
    | cons c cat2 =>
      simp only [List.cons_append, wsRun]
      rw [if_neg (by
        have := tok_not_ws c (hcat c (List.mem_cons_self _ _))
        simp [this])]
  have hw : wsRun (spacesJ n ++ cat ++ ':' :: rest) = n := by
    rw [List.append_assoc, wsRun_spaces_append, h0]
    omega
  have hdrop : List.drop n (spacesJ n ++ cat ++ ':' :: rest)
      = cat ++ ':' :: rest := by
    rw [List.append_assoc]
    exact List.drop_left' (by simp [spacesJ])
  have hpre : List.isPrefixOf (cat ++ [':'])
      (List.drop n (spacesJ n ++ cat ++ ':' :: rest)) = true := by
    rw [hdrop]
    refine List.isPrefixOf_iff_prefix.mpr ?_
    have h2 : cat ++ ':' :: rest = (cat ++ [':']) ++ rest := by simp
    rw [h2]
    exact List.prefix_append _ _
  simp only [litMatchAt, hw]
  rw [if_pos ⟨Nat.le_refl n, hpre⟩]

/-- Claim C6 (confirmed): when a category label at indentation at most
`indentSize` exists, `insertIntoYaml` splices the re-indented entry plus a
newline at `insertPosOf` — a pure insertion, so every original byte is kept
in order — where `insertPosOf` lies at or after the end of the matched label,
no same-level key starts a line between the label's end and the insertion
point, and the insertion point is end of file or the start of the next
same-level key; when no label matches, the output is the input followed by
exactly one new category block (a matching label line plus the entry lines);
in both cases every entry line carries two `indentSize` levels of
indentation. -/
theorem insertIntoYaml_spec (yaml cat entry : JStr) (isz : Nat)
    (hcat : ∀ c ∈ cat, tokChar c = true) :
    (∀ i len, findPat (litMatchAt (effIndent isz) cat) yaml = some (i, len) →
      insertIntoYaml yaml cat entry isz
        = yaml.take (insertPosOf yaml cat (effIndent isz))
          ++ indentEntry entry (effIndent isz)
          ++ '\n' :: yaml.drop (insertPosOf yaml cat (effIndent isz)) ∧
      litMatchAt (effIndent isz) cat (yaml.drop i) = some len ∧
      i + len ≤ insertPosOf yaml cat (effIndent isz) ∧
      insertPosOf yaml cat (effIndent isz) ≤ yaml.length ∧
      (∀ q, lineStartB (yaml.drop (i + len)) true q = true →
        i + len + q < insertPosOf yaml cat (effIndent isz) →
        keyMatchAt (effIndent isz) (yaml.drop (i + len + q)) = none) ∧
      (insertPosOf yaml cat (effIndent isz) = yaml.length ∨
        (keyMatchAt (effIndent isz)
          (yaml.drop (insertPosOf yaml cat (effIndent isz)))).isSome
          = true)) ∧
    (findPat (litMatchAt (effIndent isz) cat) yaml = none →
      insertIntoYaml yaml cat entry isz
        = yaml ++ '\n' :: (spacesJ (effIndent isz) ++ cat ++ ':' ::
            '\n' :: (indentEntry entry (effIndent isz) ++ ['\n'])) ∧
      litMatchAt (effIndent isz) cat
        (spacesJ (effIndent isz) ++ cat ++ ':' ::
          '\n' :: (indentEntry entry (effIndent isz) ++ ['\n']))
        = some (effIndent isz + cat.length + 1)) ∧
    (∀ l ∈ splitNl (indentEntry entry (effIndent isz)),
      (spacesJ (effIndent isz * 2)).isPrefixOf l = true) := by
  refine ⟨?_, ?_, ?_⟩
  · intro i len hfind
    obtain ⟨hls, hm, hbound, hleft⟩ :=
      findPatAux_some (litMatchAt (effIndent isz) cat) yaml true i len hfind
    have hlen2 : len ≤ yaml.length - i := by
      have := litMatchAt_le (effIndent isz) cat (yaml.drop i) len hm
      rw [List.length_drop] at this
      exact this
    have hstart_le : i + len ≤ yaml.length := by omega
    cases hinner : findPat (keyMatchAt (effIndent isz))
        (yaml.drop (i + len)) with
    | some pr2 =>
      obtain ⟨j, l2⟩ := pr2
      obtain ⟨hls2, hm2, hbound2, hleft2⟩ :=
        findPatAux_some (keyMatchAt (effIndent isz)) (yaml.drop (i + len))
          true j l2 hinner
      have hpos : insertPosOf yaml cat (effIndent isz) = i + len + j := by
        simp only [insertPosOf, hfind, hinner]
      refine ⟨?_, hm, by omega, ?_, ?_, ?_⟩
      · simp only [insertIntoYaml, insertPosOf, hfind, hinner]
      · rw [hpos]
        rw [List.length_drop] at hbound2
        omega
      · intro q hq hqlt
        rw [hpos] at hqlt
        have := hleft2 q (by omega) hq
        rw [List.drop_drop] at this
        exact this
      · right
        rw [hpos, ← List.drop_drop]
        rw [hm2]
        rfl
    | none =>
      have hpos : insertPosOf yaml cat (effIndent isz) = yaml.length := by
        simp only [insertPosOf, hfind, hinner]
      refine ⟨?_, hm, by omega, by omega, ?_, Or.inl hpos⟩
      · simp only [insertIntoYaml, insertPosOf, hfind, hinner]
      · intro q hq _
        have := findPatAux_none (keyMatchAt (effIndent isz))
          (yaml.drop (i + len)) true hinner q hq
        rw [List.drop_drop] at this
        exact this
  · intro hnone
    refine ⟨?_, ?_⟩
    · simp only [insertIntoYaml, hnone]
    · exact newBlock_label (effIndent isz) cat _ hcat
  · intro l hl
    rw [indentEntry_lines] at hl
    rcases List.mem_map.mp hl with ⟨p, _, rfl⟩
    exact List.isPrefixOf_iff_prefix.mpr (List.prefix_append _ _)

/-- Closed instance of C6: inserting into the `text_to_image` block of the
witness YAML splices the entry at position 43, inside the file. -/
theorem insertIntoYaml_spec_witness :
    insertIntoYaml yamlW (str "text_to_image") (str "- name: C") 2
      = yamlW.take (insertPosOf yamlW (str "text_to_image") (effIndent 2))
        ++ indentEntry (str "- name: C") (effIndent 2)
        ++ '\n' :: yamlW.drop
            (insertPosOf yamlW (str "text_to_image") (effIndent 2)) ∧
    insertPosOf yamlW (str "text_to_image") (effIndent 2) ≤ yamlW.length :=
  ⟨((insertIntoYaml_spec yamlW (str "text_to_image") (str "- name: C") 2
      (by decide)).1 12 16 (by decide)).1,
   ((insertIntoYaml_spec yamlW (str "text_to_image") (str "- name: C") 2
      (by decide)).1 12 16 (by decide)).2.2.2.1⟩

end KamuiSpec
